import Mathlib

/-!
Verification of the core algorithms of `ariautils/midi.py`: the tempo-map
duration query, the note pairer, the pedal interval builder, the overlap
resolver, the pedal resolver, the redundant pedal pruner, the instrument
filter and the stream assembler.

Modelling conventions:
* Python integers are modelled as `ℤ`.
* Python float arithmetic in `get_duration_ms` is modelled exactly: every
  summand `tick2second(delta, tempo, tpb) = delta * tempo / 10^6 / tpb`
  is an integer multiple of `1 / (10^6 * tpb)`, so the running float
  `duration` is tracked by the integer numerator over that fixed
  denominator.  `round()` (banker rounding, half to even) is modelled by
  `pyRound`.
* Python `list.sort` / `sorted` (Timsort, stable) is modelled by
  `List.insertionSort`, which is stable and sorts with respect to the
  same key order; where the sorted elements carry an index tie-break the
  order is linear and any sorting algorithm agrees.
* Fallible operations (indexing `note_msgs[-1]` or `note_msgs[0]` on an
  empty list, the unbound loop variable on an empty tempo map) return
  `Option` or are explicitly guarded exactly where the source guards
  them.
* Python dictionaries keyed by channel or by (note, channel) are
  modelled either as total functions (default value `[]`, matching
  `defaultdict(list)`, with "key present" meaning a non-empty value,
  an invariant of every reachable state) or as association lists where
  the source iterates over the dictionary (`pedal_status.items()`),
  preserving insertion-order semantics.
-/

/-- Tempo message: `{"type": "tempo", "data": µs per quarter, "tick": t}`. -/
structure TempoMessage where
  data : ℤ
  tick : ℤ
deriving DecidableEq, Repr

/-- Meta message: `{"type": "text" | "copyright", "data": s}`. -/
structure MetaMessage where
  type : String
  data : String
deriving DecidableEq, Repr

/-- Sustain pedal message: `data` is 0 (off) or 1 (on). -/
structure PedalMessage where
  data : ℤ
  tick : ℤ
  channel : ℤ
deriving DecidableEq, Repr

/-- Instrument (program change) message. -/
structure InstrumentMessage where
  data : ℤ
  tick : ℤ
  channel : ℤ
deriving DecidableEq, Repr

/-- The `data` field of a note message.  The source key `"end"` is a Lean
keyword and is rendered `end_`. -/
structure NoteData where
  pitch : ℤ
  start : ℤ
  end_ : ℤ
  velocity : ℤ
deriving DecidableEq, Repr

/-- Note message from paired note-on/note-off events. -/
structure NoteMessage where
  data : NoteData
  tick : ℤ
  channel : ℤ
deriving DecidableEq, Repr

/-- The `MidiDict` container.  The `metadata` dictionary (string keyed,
arbitrary values) plays no role in any algorithm modelled here and is
omitted; `pedal_resolved` is the advisory flag set by `resolve_pedal`. -/
structure MidiDict where
  meta_msgs : List MetaMessage
  tempo_msgs : List TempoMessage
  pedal_msgs : List PedalMessage
  instrument_msgs : List InstrumentMessage
  note_msgs : List NoteMessage
  ticks_per_beat : ℤ
  pedal_resolved : Bool
deriving DecidableEq, Repr

/-! ### Tempo map / duration query (`get_duration_ms`) -/

/-- Python `round()`: nearest integer, ties to even.  `pyRound n d` is
`round(n / d)` for `d > 0`. -/
def pyRound (n d : ℤ) : ℤ :=
  let q := n.fdiv d
  let r := n - q * d
  if 2 * r < d then q
  else if d < 2 * r then q + 1
  else if q % 2 = 0 then q else q + 1

/-- The index search of `get_duration_ms`: the first index whose tick is
`≥ start_tick` (falling back to the last index when the loop finishes
without breaking), then decremented unless it is `0`. -/
def tempoLocIdx (startTick : ℤ) (msgs : List TempoMessage) : ℕ :=
  let i := msgs.findIdx fun m => decide (startTick ≤ m.tick)
  let j := if i = msgs.length then msgs.length - 1 else i
  if j > 0 then j - 1 else j

/-- The `zip(tempo_msgs[idx:], tempo_msgs[idx+1:])` loop of
`get_duration_ms`.  The accumulator is the numerator of the float
`duration` over the denominator `10^6 * ticks_per_beat`; each step adds
`delta_tick * curr_tempo`.  Returns the accumulator and the final
`curr_tick` (unchanged on break, as in the source). -/
def durationLoop (endTick : ℤ) : ℤ → ℤ → List TempoMessage → ℤ × ℤ
  | currTick, acc, m1 :: m2 :: rest =>
    let delta := if endTick < m2.tick then endTick - currTick else m2.tick - currTick
    let acc2 := acc + delta * m1.data
    if endTick < m2.tick then ⟨acc2, currTick⟩
    else durationLoop endTick m2.tick acc2 (m2 :: rest)
  | currTick, acc, _ => ⟨acc, currTick⟩

/-- `get_duration_ms(start_tick, end_tick, tempo_msgs, ticks_per_beat)`.
Returns `none` on an empty tempo list (the source would raise).  The
final value is `round(duration * 1e3)` where
`duration = acc / (10^6 * ticks_per_beat)` seconds, i.e.
`pyRound acc (1000 * ticks_per_beat)`. -/
def get_duration_ms (startTick endTick : ℤ) (tempo_msgs : List TempoMessage)
    (ticks_per_beat : ℤ) : Option ℤ :=
  match tempo_msgs with
  | [] => none
  | m0 :: _ =>
    let idx := tempoLocIdx startTick tempo_msgs
    let r := durationLoop endTick startTick 0 (tempo_msgs.drop idx)
    let lastM := tempo_msgs.getLastD m0
    let acc := if lastM.tick < endTick then r.1 + (endTick - r.2) * lastM.data else r.1
    some (pyRound acc (1000 * ticks_per_beat))

/-! ### Instrument filter (`remove_instruments`) -/

/-- `MidiDict.get_program_to_instrument`: the map from MIDI program
(0..127) to instrument group name, written as range tests. -/
def program_to_instrument (i : ℤ) : String :=
  if i ≤ 7 then "piano"
  else if i ≤ 15 then "chromatic"
  else if i ≤ 23 then "organ"
  else if i ≤ 31 then "guitar"
  else if i ≤ 39 then "bass"
  else if i ≤ 47 then "strings"
  else if i ≤ 55 then "ensemble"
  else if i ≤ 63 then "brass"
  else if i ≤ 71 then "reed"
  else if i ≤ 79 then "pipe"
  else if i ≤ 87 then "synth_lead"
  else if i ≤ 95 then "synth_pad"
  else if i ≤ 103 then "synth_effect"
  else if i ≤ 111 then "ethnic"
  else if i ≤ 119 then "percussive"
  else "sfx"

/-- `programs_to_remove` of `remove_instruments`: the programs `i` in
`range(1, 127 + 1)` (that is, 1..127: program 0 is skipped by the
source) whose instrument group the config flags. -/
def programs_to_remove (config : String → Bool) : List ℤ :=
  ((List.range' 1 127).map fun n : ℕ => (n : ℤ)).filter
    fun i => config (program_to_instrument i)

/-- `channels_to_remove` of `remove_instruments`: channels of instrument
messages whose program is flagged, with channel 9 (drums) exempted. -/
def channels_to_remove (config : String → Bool) (d : MidiDict) : List ℤ :=
  ((d.instrument_msgs.filter fun m =>
      decide (m.data ∈ programs_to_remove config)).map fun m => m.channel).filter
    fun c => decide (c ≠ 9)

/-- `MidiDict.remove_instruments`.  Messages without a channel key (meta
and tempo messages) use the sentinel `-1`, as `msg.get("channel", -1)`
does in the source. -/
def remove_instruments (config : String → Bool) (d : MidiDict) : MidiDict :=
  let ctr := channels_to_remove config d
  { d with
    meta_msgs := d.meta_msgs.filter fun _ => decide ((-1 : ℤ) ∉ ctr)
    tempo_msgs := d.tempo_msgs.filter fun _ => decide ((-1 : ℤ) ∉ ctr)
    pedal_msgs := d.pedal_msgs.filter fun m => decide (m.channel ∉ ctr)
    instrument_msgs := d.instrument_msgs.filter fun m => decide (m.channel ∉ ctr)
    note_msgs := d.note_msgs.filter fun m => decide (m.channel ∉ ctr) }

/-- A config that flags exactly the piano group for removal. -/
def pianoConfig : String → Bool := fun s => decide (s = "piano")

/-- A document whose only instrument message carries program 0 (an
instrument of the piano group) on channel 0, with one note on
channel 0. -/
def dC4 : MidiDict :=
  ⟨[], [⟨500000, 0⟩], [], [⟨0, 0, 0⟩], [⟨⟨60, 10, 100, 90⟩, 10, 0⟩], 480, false⟩

/-- The channel-removal predicate that `remove_instruments` implements:
channel `c` is removed when it is not 9 and some instrument message on
`c` carries a program in 1..127 whose group the config flags. -/
def removedChannel (config : String → Bool) (d : MidiDict) (c : ℤ) : Prop :=
  c ≠ 9 ∧ ∃ im ∈ d.instrument_msgs, im.channel = c ∧
    1 ≤ im.data ∧ im.data ≤ 127 ∧ config (program_to_instrument im.data) = true

instance (config : String → Bool) (d : MidiDict) (c : ℤ) :
    Decidable (removedChannel config d c) := by
  unfold removedChannel; infer_instance

/-! ### Pedal interval builder (`_build_pedal_intervals`) -/

/-- Sort order used for `self.pedal_msgs.sort(key=lambda msg: msg["tick"])`. -/
def pedalTickLe (a b : PedalMessage) : Prop := a.tick ≤ b.tick

instance : DecidableRel pedalTickLe := fun a b => by
  unfold pedalTickLe; infer_instance

/-- `pedal_status.get(channel, None)` on the insertion-ordered
association list modelling the Python dict. -/
def statusGet (st : List (ℤ × ℤ)) (c : ℤ) : Option ℤ :=
  (st.find? fun p => decide (p.1 = c)).map fun p => p.2

/-- State of the `_build_pedal_intervals` walk: the per-channel interval
lists (total map, `[]` for absent keys, as `defaultdict(list)`) and the
`pedal_status` dict as an insertion-ordered association list. -/
structure PedalScanState where
  intervals : ℤ → List (ℤ × ℤ)
  status : List (ℤ × ℤ)

/-- One step of the `_build_pedal_intervals` walk over a pedal message. -/
def pedalIntervalStep (st : PedalScanState) (msg : PedalMessage) : PedalScanState :=
  if msg.data = 1 ∧ statusGet st.status msg.channel = none then
    ⟨st.intervals, st.status ++ [(msg.channel, msg.tick)]⟩
  else
    match statusGet st.status msg.channel with
    | some startTick =>
      if msg.data = 0 then
        ⟨fun c => if c = msg.channel then st.intervals c ++ [(startTick, msg.tick)]
                  else st.intervals c,
         st.status.filter fun p => decide (p.1 ≠ msg.channel)⟩
      else st
    | none => st

/-- `MidiDict._build_pedal_intervals`.  Returns the channel-to-interval
map together with the document whose `pedal_msgs` have been sorted in
place; `none` when `note_msgs` is empty (the source indexes
`note_msgs[-1]` unconditionally and would raise `IndexError`). -/
def build_pedal_intervals (d : MidiDict) :
    Option ((ℤ → List (ℤ × ℤ)) × MidiDict) :=
  let sorted := d.pedal_msgs.insertionSort pedalTickLe
  let st := sorted.foldl pedalIntervalStep ⟨fun _ => [], []⟩
  match d.note_msgs.getLast? with
  | none => none
  | some m =>
    let finalTick := m.data.end_
    some (st.status.foldl
            (fun f p => fun c => if c = p.1 then f c ++ [(p.2, finalTick)] else f c)
            st.intervals,
          { d with pedal_msgs := sorted })

/-! ### Overlap resolver (`resolve_overlaps`) -/

/-- Key used to group notes: `(channel, pitch)`. -/
def noteGroupKey (m : NoteMessage) : ℤ × ℤ := (m.channel, m.data.pitch)

/-- Replace the `end` field of a note. -/
def withEnd (m : NoteMessage) (e : ℤ) : NoteMessage :=
  ⟨⟨m.data.pitch, m.data.start, e, m.data.velocity⟩, m.tick, m.channel⟩

/-- The order of the per-group `msgs.sort(key=(start, end))` on
position-tagged notes: lexicographic on `(start, end)` with the original
position as the final tie-break, which makes the order linear and equal
to the stable Python sort. -/
def idxNoteLe (a b : ℕ × NoteMessage) : Prop :=
  a.2.data.start < b.2.data.start ∨
    (a.2.data.start = b.2.data.start ∧
      (a.2.data.end_ < b.2.data.end_ ∨
        (a.2.data.end_ = b.2.data.end_ ∧ a.1 ≤ b.1)))

instance : DecidableRel idxNoteLe := fun a b => by
  unfold idxNoteLe; infer_instance

/-- `msgs.set` of the adjacent-overlap scan: write `end := e` into
position `j` (`msgs[idx - 1]`, with the Python `msgs[-1]` wrap-around
resolved by the caller). -/
def overlapScanSet (msgs : List (ℕ × NoteMessage)) (j : ℕ) (e : ℤ) :
    List (ℕ × NoteMessage) :=
  match msgs.get? j with
  | some p => msgs.set j (p.1, withEnd p.2 e)
  | none => msgs

/-- The adjacent-pair scan of `resolve_overlaps` over one sorted group:
`prev_off_tick` starts at `-1`; at each index, if `prev_off_tick` is
greater than the current start the previous message's end (index
`idx - 1`; Python index `-1`, the last element, when `idx = 0`) is set
to the current start; `prev_off_tick` then becomes the current end as
read at the top of the iteration.  The fuel argument counts the
remaining iterations of `enumerate(msgs)` and starts at `msgs.length`. -/
def overlapScanGo : ℕ → List (ℕ × NoteMessage) → ℕ → ℤ → List (ℕ × NoteMessage)
  | 0, msgs, _, _ => msgs
  | fuel + 1, msgs, idx, prevOff =>
    match msgs.get? idx with
    | some p =>
      let onTick := p.2.data.start
      let offTick := p.2.data.end_
      let msgs2 := if prevOff > onTick then
          overlapScanSet msgs (if idx = 0 then msgs.length - 1 else idx - 1) onTick
        else msgs
      overlapScanGo fuel msgs2 (idx + 1) offTick
    | none => msgs

/-- Sort one position-tagged group and run the adjacent-overlap scan. -/
def resolveGroup (g : List (ℕ × NoteMessage)) : List (ℕ × NoteMessage) :=
  let s := g.insertionSort idxNoteLe
  overlapScanGo s.length s 0 (-1)

/-- The per-(channel, pitch) group of position-tagged notes, in
`note_msgs` order (the insertion order of the `defaultdict` groups). -/
def groupOf (l : List NoteMessage) (k : ℤ × ℤ) : List (ℕ × NoteMessage) :=
  l.enum.filter fun q => decide (noteGroupKey q.2 = k)

/-- `resolve_overlaps` on the note list.  The source mutates the note
dictionaries in place through the per-(channel, pitch) groups; here each
position of the result looks up its processed entry in its own group
(positions are unique, groups are disjoint, and only `end` fields are
rewritten, so the functional reading is exact). -/
def resolve_overlaps_notes (l : List NoteMessage) : List NoteMessage :=
  l.enum.map fun p =>
    match (resolveGroup (groupOf l (noteGroupKey p.2))).find?
        (fun q => decide (q.1 = p.1)) with
    | some q => q.2
    | none => p.2

/-- `MidiDict.resolve_overlaps`. -/
def resolve_overlaps (d : MidiDict) : MidiDict :=
  { d with note_msgs := resolve_overlaps_notes d.note_msgs }

/-! ### Pedal resolver (`resolve_pedal`) -/

/-- `MidiDict.resolve_pedal`: extend each note end into the first pedal
interval that strictly contains it, then resolve overlaps and set the
flag.  `none` when `_build_pedal_intervals` fails. -/
def resolve_pedal (d : MidiDict) : Option MidiDict :=
  match build_pedal_intervals d with
  | none => none
  | some (iv, d1) =>
    let newNotes := d1.note_msgs.map fun m =>
      match (iv m.channel).find? fun pi =>
          decide (pi.1 < m.data.end_ ∧ m.data.end_ < pi.2) with
      | some pi => withEnd m pi.2
      | none => m
    some { resolve_overlaps { d1 with note_msgs := newNotes } with pedal_resolved := true }

/-! ### Redundant pedal pruner (`remove_redundant_pedals`) -/

/-- The `while` loop of `_is_pedal_useful`: `note_start` is the start of
the previously examined note (initially of `note_msgs[0]`); the loop
runs while `note_start ≤ pedal_end` and the index is in range, returning
true on the first note whose end lies in `[pedal_start, pedal_end]`.
The fuel counts the remaining indices (`notes.length` at the start);
exhausted fuel coincides with the index leaving the range. -/
def isPedalUsefulGo (ps pe : ℤ) (notes : List NoteMessage) :
    ℕ → ℕ → ℤ → Bool
  | 0, _, _ => false
  | fuel + 1, noteIdx, noteStart =>
    if noteStart ≤ pe then
      match notes.get? noteIdx with
      | some m =>
        if ps ≤ m.data.end_ ∧ m.data.end_ ≤ pe then true
        else isPedalUsefulGo ps pe notes fuel (noteIdx + 1) m.data.start
      | none => false
    else false

/-- `_is_pedal_useful(pedal_start_tick, pedal_end_tick, note_msgs)`.
The source reads `note_msgs[0]` unconditionally; every call site
guarantees a non-empty list, and the empty case returns false here. -/
def is_pedal_useful (ps pe : ℤ) (notes : List NoteMessage) : Bool :=
  match notes with
  | [] => false
  | m :: _ => isPedalUsefulGo ps pe notes notes.length 0 m.data.start

/-- State of the `_process_channel_pedals` scan: the collected indices
to remove and the `pedal_down_tick` / `pedal_down_msg_idx` pair. -/
structure PrunerState where
  removeIdxs : List ℕ
  pedalDown : Option (ℤ × ℕ)
deriving DecidableEq, Repr

/-- One step of `_process_channel_pedals` over an enumerated pedal
message.  `total` is `len(self.pedal_msgs)`; a message of another
channel is skipped; a final message with value 1 is marked
(never-closed check); then the value is dispatched against the pedal
state exactly as in the source. -/
def processPedalStep (notes : List NoteMessage) (channel : ℤ) (total : ℕ)
    (st : PrunerState) (im : ℕ × PedalMessage) : PrunerState :=
  let idx := im.1
  let msg := im.2
  if msg.channel ≠ channel then st
  else
    let st1 := if idx = total - 1 ∧ msg.data = 1 then
        ⟨st.removeIdxs ++ [idx], st.pedalDown⟩
      else st
    match st1.pedalDown with
    | none =>
      if msg.data = 1 then ⟨st1.removeIdxs, some (msg.tick, idx)⟩
      else ⟨st1.removeIdxs ++ [idx], none⟩
    | some di =>
      if msg.data = 1 then ⟨st1.removeIdxs ++ [idx], st1.pedalDown⟩
      else
        if is_pedal_useful di.1 msg.tick notes then ⟨st1.removeIdxs, none⟩
        else ⟨st1.removeIdxs ++ [di.2, idx], none⟩

/-- `_process_channel_pedals(channel)`: with no notes on the channel,
remove every pedal message of the channel; otherwise run the scan and
filter out the marked indices. -/
def process_channel_pedals (d : MidiDict) (channel : ℤ) : MidiDict :=
  let note_msgs := d.note_msgs.filter fun m => decide (m.channel = channel)
  if note_msgs.isEmpty then
    { d with pedal_msgs := d.pedal_msgs.filter (fun m => decide (m.channel ≠ channel)) }
  else
    let st := d.pedal_msgs.enum.foldl
      (processPedalStep note_msgs channel d.pedal_msgs.length) ⟨[], none⟩
    let kept := (d.pedal_msgs.enum.filter
      (fun p => decide (p.1 ∉ st.removeIdxs))).map (fun p => p.2)
    { d with pedal_msgs := kept }

/-- The channel iteration `set(msg["channel"] for msg in pedal_msgs)`,
modelled as the distinct channels in ascending order (CPython iterates
small non-negative ints in this order for MIDI-sized channel sets;
distinct channel passes touch only their own channel's messages). -/
def pedalChannels (d : MidiDict) : List ℤ :=
  ((d.pedal_msgs.map fun m => m.channel).dedup).insertionSort fun a b => a ≤ b

/-- `MidiDict.remove_redundant_pedals`. -/
def remove_redundant_pedals (d : MidiDict) : MidiDict :=
  (pedalChannels d).foldl process_channel_pedals d

/-! ### Stream assembler (`dict_to_midi`) and track extractor
(`_extract_track_data`) -/

/-- The body of a raw mido message; `time` is stored separately. -/
inductive RawBody where
  | text (s : String)
  | copyright (s : String)
  | set_tempo (tempo : ℤ)
  | end_of_track
  | program_change (program channel : ℤ)
  | control_change (control value channel : ℤ)
  | note_on (note velocity channel : ℤ)
  | note_off (note velocity channel : ℤ)
deriving DecidableEq, Repr

/-- A raw mido message: a body plus a `time` field (absolute or delta
ticks depending on the phase). -/
structure RawEvent where
  body : RawBody
  time : ℤ
deriving DecidableEq, Repr

/-- The `velocity` attribute when present (`note_on` / `note_off`). -/
def rawVelocity (e : RawEvent) : Option ℤ :=
  match e.body with
  | .note_on _ v _ => some v
  | .note_off _ v _ => some v
  | _ => none

/-- The `_sort_fn` of `dict_to_midi`: `(time, velocity)` for messages
with a velocity attribute, `(time, 1000)` otherwise, compared
lexicographically (Python tuple order). -/
def rawLe (a b : RawEvent) : Prop :=
  a.time < b.time ∨
    (a.time = b.time ∧ (rawVelocity a).getD 1000 ≤ (rawVelocity b).getD 1000)

instance : DecidableRel rawLe := fun a b => by
  unfold rawLe; infer_instance

/-- The `end_msgs` dictionary of `dict_to_midi`: keyed by
`(channel, pitch)` in insertion order, each value the list of
`(start, end)` pairs in note order. -/
def upsertEnd (l : List ((ℤ × ℤ) × List (ℤ × ℤ))) (k : ℤ × ℤ) (v : ℤ × ℤ) :
    List ((ℤ × ℤ) × List (ℤ × ℤ)) :=
  match l with
  | [] => [(k, [v])]
  | kv :: rest =>
    if kv.1 = k then (kv.1, kv.2 ++ [v]) :: rest else kv :: upsertEnd rest k v

/-- Build `end_msgs` from the note list. -/
def buildEndMsgs (notes : List NoteMessage) : List ((ℤ × ℤ) × List (ℤ × ℤ)) :=
  notes.foldl
    (fun acc m => upsertEnd acc (m.channel, m.data.pitch) (m.data.start, m.data.end_)) []

/-- The note-off events (`note_on` with velocity 0) emitted by
`dict_to_midi`: one candidate per note, suppressed when another interval
`(s', e')` of the same `(channel, pitch)` satisfies
`start < s' < end < e'`. -/
def endEvents (notes : List NoteMessage) : List RawEvent :=
  (buildEndMsgs notes).flatMap fun kv =>
    kv.2.filterMap fun se =>
      if kv.2.any fun se2 => decide (se.1 < se2.1 ∧ se2.1 < se.2 ∧ se.2 < se2.2) then
        none
      else some ⟨.note_on kv.1.2 0 kv.1.1, se.2⟩

/-- The absolute-to-delta conversion at the end of `dict_to_midi`
(`msg.time -= tick; tick += msg.time`). -/
def deltaConvert : ℤ → List RawEvent → List RawEvent
  | _, [] => []
  | tick, e :: rest => ⟨e.body, e.time - tick⟩ :: deltaConvert e.time rest

/-- The delta-to-absolute conversion at the start of `midi_to_dict`
(`message.time += curr_tick; curr_tick = message.time`). -/
def absConvert : ℤ → List RawEvent → List RawEvent
  | _, [] => []
  | tick, e :: rest =>
    let t := e.time + tick
    ⟨e.body, t⟩ :: absConvert t rest

/-- `dict_to_midi`: assemble the raw track (tempo, pedal, program,
note-on, then candidate note-off events), sort it by `_sort_fn`, convert
to delta ticks and append the end-of-track marker. -/
def dict_to_midi (d : MidiDict) : List RawEvent :=
  let track :=
    (d.tempo_msgs.map fun m => (⟨.set_tempo m.data, m.tick⟩ : RawEvent)) ++
    (d.pedal_msgs.map fun m =>
      (⟨.control_change 64 (m.data * 127) m.channel, m.tick⟩ : RawEvent)) ++
    (d.instrument_msgs.map fun m =>
      (⟨.program_change m.data m.channel, m.tick⟩ : RawEvent)) ++
    (d.note_msgs.map fun m =>
      (⟨.note_on m.data.pitch m.data.velocity m.channel, m.data.start⟩ : RawEvent)) ++
    endEvents d.note_msgs
  deltaConvert 0 (track.insertionSort rawLe) ++ [⟨.end_of_track, 0⟩]

/-- State of `_extract_track_data`: the five output lists and the
`last_note_on` dict, modelled as a total map from `(note, channel)` to
the list of open `(start_tick, velocity)` records, with `[]` standing
for an absent key (the source never stores an empty list: keys are
created non-empty by `append` and deleted rather than emptied). -/
structure TrackData where
  meta_msgs : List MetaMessage
  tempo_msgs : List TempoMessage
  pedal_msgs : List PedalMessage
  instrument_msgs : List InstrumentMessage
  note_msgs : List NoteMessage
  last_note_on : ℤ × ℤ → List (ℤ × ℤ)

/-- The note-off branch of `_extract_track_data` (`note_off`, or
`note_on` with velocity 0): ignore when the key is absent; otherwise
close every open record whose start differs from the current tick, and
keep the same-tick records only when both partitions are non-empty. -/
def closeNotes (st : TrackData) (note channel endTick : ℤ) : TrackData :=
  let openNotes := st.last_note_on (note, channel)
  if openNotes.isEmpty then st
  else
    let notesToClose := openNotes.filter fun sv => decide (sv.1 ≠ endTick)
    let notesToKeep := openNotes.filter fun sv => decide (sv.1 = endTick)
    let closed : List NoteMessage := notesToClose.map fun sv =>
      ⟨⟨note, sv.1, endTick, sv.2⟩, sv.1, channel⟩
    let newOpen := if notesToClose.length > 0 ∧ notesToKeep.length > 0 then
        notesToKeep
      else []
    { st with
      note_msgs := st.note_msgs ++ closed
      last_note_on := fun k => if k = (note, channel) then newOpen else st.last_note_on k }

/-- One step of `_extract_track_data` over a raw message, following the
source's branch structure. -/
def extractStep (st : TrackData) (e : RawEvent) : TrackData :=
  match e.body with
  | .text s => { st with meta_msgs := st.meta_msgs ++ [⟨"text", s⟩] }
  | .copyright s => { st with meta_msgs := st.meta_msgs ++ [⟨"copyright", s⟩] }
  | .set_tempo tempo => { st with tempo_msgs := st.tempo_msgs ++ [⟨tempo, e.time⟩] }
  | .end_of_track => st
  | .program_change program channel =>
    { st with instrument_msgs := st.instrument_msgs ++ [⟨program, e.time, channel⟩] }
  | .control_change control value channel =>
    if control = 64 then
      { st with pedal_msgs :=
          st.pedal_msgs ++ [⟨if value < 64 then 0 else 1, e.time, channel⟩] }
    else st
  | .note_on note velocity channel =>
    if velocity > 0 then
      { st with last_note_on := fun k =>
          if k = (note, channel) then st.last_note_on k ++ [(e.time, velocity)]
          else st.last_note_on k }
    else if velocity = 0 then closeNotes st note channel e.time
    else st
  | .note_off note _ channel => closeNotes st note channel e.time

/-- The empty extractor state. -/
def emptyTrackData : TrackData := ⟨[], [], [], [], [], fun _ => []⟩

/-- `_extract_track_data` over a track of absolute-tick raw messages. -/
def extract_track_data (track : List RawEvent) : TrackData :=
  track.foldl extractStep emptyTrackData

/-! ### Specification-side notions used to state the claims -/

/-- The `(pitch, channel, start, end, velocity)` view of a note message
under which the round-trip claim compares documents. -/
def noteQuint (m : NoteMessage) : ℤ × ℤ × ℤ × ℤ × ℤ :=
  (m.data.pitch, m.channel, m.data.start, m.data.end_, m.data.velocity)

/-- Spec-side pairing of a channel's pedal messages in list order: an
`on` while up opens at its tick, an `off` while down closes the pair,
repeats are no-ops; the result is the list of matched (on, off) pairs.
The first component of the state is the open tick, if any. -/
def pairsScanGo : Option ℤ → List PedalMessage → List (ℤ × ℤ)
  | _, [] => []
  | none, m :: rest =>
    if m.data = 1 then pairsScanGo (some m.tick) rest else pairsScanGo none rest
  | some t, m :: rest =>
    if m.data = 0 then (t, m.tick) :: pairsScanGo none rest
    else pairsScanGo (some t) rest

/-- The matched (on, off) pairs of a message list. -/
def pairsScan (msgs : List PedalMessage) : List (ℤ × ℤ) :=
  pairsScanGo none msgs

/-- The open tick left after scanning a message list. -/
def openAfter : Option ℤ → List PedalMessage → Option ℤ
  | o, [] => o
  | none, m :: rest => openAfter (if m.data = 1 then some m.tick else none) rest
  | some t, m :: rest => openAfter (if m.data = 0 then none else some t) rest

/-- Two half-open tick ranges overlap: they share at least one tick. -/
def rangesOverlap (s1 e1 s2 e2 : ℤ) : Prop := max s1 s2 < min e1 e2

instance (s1 e1 s2 e2 : ℤ) : Decidable (rangesOverlap s1 e1 s2 e2) := by
  unfold rangesOverlap; infer_instance

/-- Overlap of two note messages in the claim sense: same channel and
pitch with intersecting `[start, end)` ranges. -/
def notesOverlap (a b : NoteMessage) : Prop :=
  noteGroupKey a = noteGroupKey b ∧
    rangesOverlap a.data.start a.data.end_ b.data.start b.data.end_

instance (a b : NoteMessage) : Decidable (notesOverlap a b) := by
  unfold notesOverlap; infer_instance

/-- Whether a raw event is a note event (note-on or note-off). -/
def isNoteEvt (e : RawEvent) : Bool :=
  match e.body with
  | .note_on _ _ _ => true
  | .note_off _ _ _ => true
  | _ => false

/-- Whether a raw event is a note event of the pairing key
`(note, channel)`. -/
def isKeyEvt (k : ℤ × ℤ) (e : RawEvent) : Bool :=
  match e.body with
  | .note_on n _ c => decide ((n, c) = k)
  | .note_off n _ c => decide ((n, c) = k)
  | _ => false

/-- The single-key projection of the pairer's note-off branch: state is
the emitted notes and the key's open list. -/
def perKeyClose (k : ℤ × ℤ) (st : List NoteMessage × List (ℤ × ℤ)) (T : ℤ) :
    List NoteMessage × List (ℤ × ℤ) :=
  if st.2.isEmpty then st
  else
    let notesToClose := st.2.filter fun sv => decide (sv.1 ≠ T)
    let notesToKeep := st.2.filter fun sv => decide (sv.1 = T)
    ⟨st.1 ++ notesToClose.map fun sv => ⟨⟨k.1, sv.1, T, sv.2⟩, sv.1, k.2⟩,
     if notesToClose.length > 0 ∧ notesToKeep.length > 0 then notesToKeep else []⟩

/-- The single-key projection of `extractStep`. -/
def perKeyStep (k : ℤ × ℤ) (st : List NoteMessage × List (ℤ × ℤ)) (e : RawEvent) :
    List NoteMessage × List (ℤ × ℤ) :=
  match e.body with
  | .note_on note velocity channel =>
    if (note, channel) = k then
      if velocity > 0 then ⟨st.1, st.2 ++ [(e.time, velocity)]⟩
      else if velocity = 0 then perKeyClose k st e.time
      else st
    else st
  | .note_off note _ channel =>
    if (note, channel) = k then perKeyClose k st e.time else st
  | _ => st

/-- Value of an `end_msgs` key, `[]` when absent. -/
def lookupEnd (l : List ((ℤ × ℤ) × List (ℤ × ℤ))) (k : ℤ × ℤ) : List (ℤ × ℤ) :=
  ((l.find? fun kv => decide (kv.1 = k)).map fun kv => kv.2).getD []

/-- The note-on raw event the assembler emits for a note. -/
def noteOnEvt (m : NoteMessage) : RawEvent :=
  ⟨.note_on m.data.pitch m.data.velocity m.channel, m.data.start⟩

/-- The candidate note-off raw event (a velocity-0 note-on at the end
tick) the assembler emits for a note. -/
def noteOffEvt (m : NoteMessage) : RawEvent :=
  ⟨.note_on m.data.pitch 0 m.channel, m.data.end_⟩

/-- The alternating on/off event stream of a chain of notes of one
pairing key `k = (pitch, channel)`. -/
def keyEvents (k : ℤ × ℤ) : List NoteMessage → List RawEvent
  | [] => []
  | m :: rest =>
    ⟨.note_on k.1 m.data.velocity k.2, m.data.start⟩ ::
      ⟨.note_on k.1 0 k.2, m.data.end_⟩ :: keyEvents k rest

/-- Order on notes by start tick. -/
def startLe (a b : NoteMessage) : Prop := a.data.start ≤ b.data.start

instance : DecidableRel startLe := fun a b => by
  unfold startLe; infer_instance

instance : IsTotal NoteMessage startLe := by
  constructor
  intro a b
  unfold startLe
  omega

instance : IsTrans NoteMessage startLe := by
  constructor
  intro a b c hab hbc
  unfold startLe at *
  omega

/-- Strict version of the assembler's sort order. -/
def rawLt (a b : RawEvent) : Prop :=
  a.time < b.time ∨
    (a.time = b.time ∧ (rawVelocity a).getD 1000 < (rawVelocity b).getD 1000)

instance : DecidableRel rawLt := fun a b => by
  unfold rawLt; infer_instance

instance : IsTrans RawEvent rawLt := by
  constructor
  intro a b c hab hbc
  unfold rawLt at *
  omega

instance : IsAntisymm RawEvent rawLt := by
  constructor
  intro a b hab hba
  unfold rawLt at *
  omega

instance : IsTotal RawEvent rawLe := by
  constructor
  intro a b
  unfold rawLe
  omega

instance : IsTrans RawEvent rawLe := by
  constructor
  intro a b c hab hbc
  unfold rawLe at *
  omega

/-- The pairing key of a note message: `(pitch, channel)` as used by
`last_note_on` in `_extract_track_data`. -/
def keyNC (m : NoteMessage) : ℤ × ℤ := (m.data.pitch, m.channel)

/-- The `end_msgs` key of a note message: `(channel, pitch)` as used by
`dict_to_midi`. -/
def keyCP (m : NoteMessage) : ℤ × ℤ := (m.channel, m.data.pitch)

/-- The `(start, end)` pair of a note message. -/
def seOf (m : NoteMessage) : ℤ × ℤ := (m.data.start, m.data.end_)

/-- The unsorted raw track assembled by `dict_to_midi` before sorting. -/
def trackOf (d : MidiDict) : List RawEvent :=
  (d.tempo_msgs.map fun m => (⟨.set_tempo m.data, m.tick⟩ : RawEvent)) ++
  (d.pedal_msgs.map fun m =>
    (⟨.control_change 64 (m.data * 127) m.channel, m.tick⟩ : RawEvent)) ++
  (d.instrument_msgs.map fun m =>
    (⟨.program_change m.data m.channel, m.tick⟩ : RawEvent)) ++
  (d.note_msgs.map fun m =>
    (⟨.note_on m.data.pitch m.data.velocity m.channel, m.data.start⟩ : RawEvent)) ++
  endEvents d.note_msgs

/-- The note message re-created by the pairer for key `k` from a note of
key `k`: same pitch, channel, start, end and velocity, with the message
tick set to the start tick. -/
def normNote (k : ℤ × ℤ) (m : NoteMessage) : NoteMessage :=
  ⟨⟨k.1, m.data.start, m.data.end_, m.data.velocity⟩, m.data.start, k.2⟩

/-- The `_sort_fn` velocity component: the velocity attribute, 1000 when
absent. -/
def velD (e : RawEvent) : ℤ := (rawVelocity e).getD 1000

/-- Separation of two notes: the first ends no later than the second
starts. -/
def noteSep (a b : NoteMessage) : Prop := a.data.end_ ≤ b.data.start

/-! ### Concrete documents used by counterexamples and witnesses -/

/-- Two channel-0 notes — the first starts earlier but ends last — and a
pedal-on at tick 5 that is never released. -/
def dC2 : MidiDict :=
  ⟨[], [⟨500000, 0⟩], [⟨1, 5, 0⟩], [⟨0, 0, 0⟩],
   [⟨⟨60, 0, 100, 90⟩, 0, 0⟩, ⟨⟨61, 10, 20, 90⟩, 10, 0⟩], 480, false⟩

/-- A trailing unmatched pedal-on on channel 0 followed by a useful
pedal pair on channel 1; both channels have notes. -/
def dC6 : MidiDict :=
  ⟨[], [⟨500000, 0⟩], [⟨1, 10, 0⟩, ⟨1, 15, 1⟩, ⟨0, 30, 1⟩], [⟨0, 0, 0⟩],
   [⟨⟨60, 0, 12, 90⟩, 0, 0⟩, ⟨⟨61, 16, 20, 90⟩, 16, 1⟩], 480, false⟩

/-- A single zero-length note (start = end = 5): no two notes overlap
and the pedal list is empty. -/
def dC7 : MidiDict :=
  ⟨[], [⟨500000, 0⟩], [], [⟨0, 0, 0⟩], [⟨⟨60, 5, 5, 100⟩, 5, 0⟩], 480, false⟩

/-- A document with no overlapping notes in the `[start, end)` sense —
the second note is zero-length — on which `resolve_overlaps`
nevertheless rewrites an end tick. -/
def dC8 : MidiDict :=
  ⟨[], [⟨500000, 0⟩], [], [⟨0, 0, 0⟩],
   [⟨⟨60, 0, 10, 90⟩, 0, 0⟩, ⟨⟨60, 5, 5, 90⟩, 5, 0⟩], 480, false⟩

/-- The two-note overlap example of the spec: `(60, 0, 0, 100)` and
`(60, 0, 50, 150)`. -/
def dC8ex : MidiDict :=
  ⟨[], [⟨500000, 0⟩], [], [⟨0, 0, 0⟩],
   [⟨⟨60, 0, 100, 90⟩, 0, 0⟩, ⟨⟨60, 50, 150, 80⟩, 50, 0⟩], 480, false⟩

/-- An empty note list with an unclosed pedal-on. -/
def dC10 : MidiDict :=
  ⟨[], [⟨500000, 0⟩], [⟨1, 5, 0⟩], [⟨0, 0, 0⟩], [], 480, false⟩

/-- Extractor state with one open note: pitch 60, channel 0, started at
tick 5 with velocity 100. -/
def stC3 : TrackData := extractStep emptyTrackData ⟨.note_on 60 100 0, 5⟩

/-- The positional reading of the adjacent-overlap scan of
`resolve_overlaps` (valid when the `-1` sentinel comparison of the first
iteration does not fire, i.e. when note starts are nonnegative):
element j keeps its end unless it exceeds the next element's start, in
which case it is clipped to that start; the last element is unchanged. -/
def trimPairs : List (ℕ × NoteMessage) → List (ℕ × NoteMessage)
  | [] => []
  | [x] => [x]
  | x :: y :: r =>
    (if x.2.data.end_ > y.2.data.start then (x.1, withEnd x.2 y.2.data.start) else x)
      :: trimPairs (y :: r)

/-- The head of the positional trim: clipped by the next element's
start when present. -/
def trimHead (y : ℕ × NoteMessage) (r : List (ℕ × NoteMessage)) : ℕ × NoteMessage :=
  match r with
  | [] => y
  | z :: _ =>
    if y.2.data.end_ > z.2.data.start then (y.1, withEnd y.2 z.2.data.start) else y

/-- The `(start, end)` value of a position-tagged note. -/
def noteVal (p : ℕ × NoteMessage) : ℤ × ℤ := (p.2.data.start, p.2.data.end_)

/-- Lexicographic order on `(start, end)` values. -/
def valLe (u v : ℤ × ℤ) : Prop := u.1 < v.1 ∨ (u.1 = v.1 ∧ u.2 ≤ v.2)

instance : DecidableRel valLe := fun u v => by
  unfold valLe; infer_instance

instance : IsTrans (ℤ × ℤ) valLe := by
  constructor
  intro a b c hab hbc
  unfold valLe at *
  omega

instance : IsAntisymm (ℤ × ℤ) valLe := by
  constructor
  intro a b hab hba
  unfold valLe at *
  have h1 : a.1 = b.1 := by omega
  have h2 : a.2 = b.2 := by omega
  exact Prod.ext h1 h2

instance : IsTotal (ℕ × NoteMessage) idxNoteLe := by
  constructor
  intro a b
  unfold idxNoteLe
  omega

instance : IsTrans (ℕ × NoteMessage) idxNoteLe := by
  constructor
  intro a b c hab hbc
  unfold idxNoteLe at *
  omega

/-! ## Theorems -/

/-- Claim C1 (counterexample): on the tempo map `[(tick 0, 500000 µs)]`
with 480 ticks per beat, `get_duration_ms 0 480` is not 1000 ms:
500000 µs per quarter at 480 ppq makes the 480-tick span half a second. -/
theorem get_duration_ms_example_ne_1000 :
    get_duration_ms 0 480 [⟨500000, 0⟩] 480 ≠ some 1000 := by decide

/-- Claim C1 (amended): on the tempo map `[(tick 0, 500000 µs)]` with
480 ticks per beat, `get_duration_ms 0 480` returns 500 ms. -/
theorem get_duration_ms_example_eq_500 :
    get_duration_ms 0 480 [⟨500000, 0⟩] 480 = some 500 := by decide

/-- Claim C5 (code bug, evaluation): with the ascending tempo map
`[(0, 500000), (10, 60000000)]` and 480 ticks per beat, the ticks
`15 ≤ 20 ≤ 25` all lie beyond the last tempo change; the index search
then selects the second-to-last segment and charges a negative tick
span at the wrong tempo, so `duration_ms(15,25) = 1870` while
`duration_ms(15,20) + duration_ms(20,25) = 1245 + 1865 = 3110`, a
split discrepancy of 1240 ms, far beyond the specified ±1 ms. -/
theorem get_duration_ms_additivity_violation :
    get_duration_ms 15 25 [⟨500000, 0⟩, ⟨60000000, 10⟩] 480 = some 1870 ∧
    get_duration_ms 15 20 [⟨500000, 0⟩, ⟨60000000, 10⟩] 480 = some 1245 ∧
    get_duration_ms 20 25 [⟨500000, 0⟩, ⟨60000000, 10⟩] 480 = some 1865 ∧
    (1245 + 1865 : ℤ) - 1870 = 1240 := by
  refine ⟨by decide, by decide, by decide, by decide⟩

/-- Claim C4 (counterexample): flagging the piano group and running
`remove_instruments` on a document whose channel 0 instrument has
program 0 (piano) removes nothing: the source iterates over programs
`range(1, 128)`, so program 0 is never flagged, although the claim says
all 128 programs (0 through 127) are considered, which would delete the
channel 0 messages here. -/
theorem remove_instruments_program_zero_counterexample :
    remove_instruments pianoConfig dC4 = dC4 ∧
    dC4.note_msgs ≠ [] ∧
    dC4.instrument_msgs = [⟨0, 0, 0⟩] ∧
    pianoConfig (program_to_instrument 0) = true := by
  refine ⟨by decide, by decide, by decide, by decide⟩

/-- Membership in `programs_to_remove`. -/
theorem mem_programs_to_remove (config : String → Bool) (i : ℤ) :
    i ∈ programs_to_remove config ↔
      1 ≤ i ∧ i ≤ 127 ∧ config (program_to_instrument i) = true := by
  unfold programs_to_remove
  rw [List.mem_filter, List.mem_map]
  constructor
  · rintro ⟨⟨n, hn, rfl⟩, hc⟩
    rw [List.mem_range'_1] at hn
    exact ⟨by omega, by omega, hc⟩
  · rintro ⟨h1, h2, hc⟩
    refine ⟨⟨i.toNat, ?_, by omega⟩, by simpa using hc⟩
    rw [List.mem_range'_1]
    omega

/-- Membership in `channels_to_remove` is the `removedChannel`
predicate. -/
theorem mem_channels_to_remove (config : String → Bool) (d : MidiDict) (c : ℤ) :
    c ∈ channels_to_remove config d ↔ removedChannel config d c := by
  unfold channels_to_remove removedChannel
  simp only [List.mem_filter, List.mem_map, decide_eq_true_eq]
  constructor
  · rintro ⟨⟨im, him, rfl⟩, h9⟩
    rcases him with ⟨hmem, hprog⟩
    rw [mem_programs_to_remove] at hprog
    exact ⟨h9, im, hmem, rfl, hprog.1, hprog.2.1, hprog.2.2⟩
  · rintro ⟨h9, im, hmem, rfl, h1, h2, hflag⟩
    refine ⟨⟨im, ⟨hmem, ?_⟩, rfl⟩, h9⟩
    rw [mem_programs_to_remove]
    exact ⟨h1, h2, hflag⟩

/-- Claim C4 (amended): `remove_instruments` flags the programs 1..127
(program 0 is skipped) whose instrument group the config maps to true,
removes every message on a channel whose instrument message carries such
a program with channel 9 exempt, and leaves the channel-less meta and
tempo messages untouched (their channel reads as the sentinel -1, and
instrument channels are nonnegative). -/
theorem remove_instruments_spec (config : String → Bool) (d : MidiDict)
    (hch : ∀ im ∈ d.instrument_msgs, 0 ≤ im.channel) :
    (remove_instruments config d).meta_msgs = d.meta_msgs ∧
    (remove_instruments config d).tempo_msgs = d.tempo_msgs ∧
    (remove_instruments config d).pedal_msgs
      = d.pedal_msgs.filter (fun m => decide (¬ removedChannel config d m.channel)) ∧
    (remove_instruments config d).instrument_msgs
      = d.instrument_msgs.filter (fun m => decide (¬ removedChannel config d m.channel)) ∧
    (remove_instruments config d).note_msgs
      = d.note_msgs.filter (fun m => decide (¬ removedChannel config d m.channel)) ∧
    (remove_instruments config d).ticks_per_beat = d.ticks_per_beat := by
  have hm1 : ((-1 : ℤ) ∉ channels_to_remove config d) := by
    rw [mem_channels_to_remove]
    rintro ⟨-, im, hmem, hc, -⟩
    have := hch im hmem
    omega
  have hpt : ∀ c : ℤ, (decide (c ∉ channels_to_remove config d))
      = decide (¬ removedChannel config d c) := by
    intro c
    exact decide_eq_decide.mpr (not_congr (mem_channels_to_remove config d c))
  refine ⟨?_, ?_, ?_, ?_, ?_, rfl⟩
  · show List.filter _ _ = _
    rw [List.filter_congr fun a _ => by rw [decide_eq_true hm1], List.filter_true]
  · show List.filter _ _ = _
    rw [List.filter_congr fun a _ => by rw [decide_eq_true hm1], List.filter_true]
  · exact List.filter_congr fun a _ => hpt a.channel
  · exact List.filter_congr fun a _ => hpt a.channel
  · exact List.filter_congr fun a _ => hpt a.channel

/-- Claim C4 (witness): the amended characterization applied to the
concrete piano-flagging configuration and document. -/
theorem remove_instruments_spec_witness :
    (∀ im ∈ dC4.instrument_msgs, 0 ≤ im.channel) ∧
    (remove_instruments pianoConfig dC4).meta_msgs = dC4.meta_msgs :=
  ⟨by decide, (remove_instruments_spec pianoConfig dC4 (by decide)).1⟩

/-- Claim C10: on a document with an empty note list and a pedal left
down by its pedal messages, `_build_pedal_intervals` fails (the source
raises `IndexError` on `note_msgs[-1]`), and so does `resolve_pedal`,
which invokes it. -/
theorem resolve_pedal_empty_notes_failure (d : MidiDict)
    (hn : d.note_msgs = [])
    (_hp : ∃ c t, openAfter none
        ((d.pedal_msgs.insertionSort pedalTickLe).filter
          fun x => decide (x.channel = c)) = some t) :
    build_pedal_intervals d = none ∧ resolve_pedal d = none := by
  have h1 : build_pedal_intervals d = none := by
    unfold build_pedal_intervals
    rw [hn]
    rfl
  refine ⟨h1, ?_⟩
  unfold resolve_pedal
  rw [h1]

/-- Claim C10 (witness): the failure on the concrete document with one
unreleased channel-0 pedal-on and no notes. -/
theorem resolve_pedal_empty_notes_failure_witness :
    build_pedal_intervals dC10 = none ∧ resolve_pedal dC10 = none :=
  resolve_pedal_empty_notes_failure dC10 (by decide) ⟨0, 5, by decide⟩

/-- `find?` commutes with a filter that cannot discard a match. -/
theorem find?_filter_of_imp {α : Type} (l : List α) (p q : α → Bool)
    (h : ∀ x, p x = true → q x = true) :
    (l.filter q).find? p = l.find? p := by
  induction l with
  | nil => rfl
  | cons a l ih =>
    by_cases hp : p a = true
    · rw [List.filter_cons, if_pos (h a hp)]
      rw [List.find?_cons_of_pos _ hp, List.find?_cons_of_pos _ hp]
    · have hp' : p a = false := by simp [hp]
      rw [List.filter_cons]
      by_cases hq : q a = true
      · rw [if_pos hq, List.find?_cons_of_neg _ (by simp [hp']),
          List.find?_cons_of_neg _ (by simp [hp'])]
        exact ih
      · rw [if_neg (by simp_all), List.find?_cons_of_neg _ (by simp [hp'])]
        exact ih

/-- `statusGet` after appending an entry for another channel. -/
theorem statusGet_append_ne (st : List (ℤ × ℤ)) (ch t c : ℤ) (h : c ≠ ch) :
    statusGet (st ++ [(ch, t)]) c = statusGet st c := by
  unfold statusGet
  rw [List.find?_append]
  have h2 : (([(ch, t)] : List (ℤ × ℤ)).find? fun p => decide (p.1 = c)) = none := by
    rw [List.find?_eq_none]
    intro x hx
    rw [List.mem_singleton] at hx
    subst hx
    simp only [decide_eq_true_eq]
    exact fun hh => h hh.symm
  rw [h2]
  cases st.find? fun p => decide (p.1 = c) <;> rfl

/-- `statusGet` after appending an entry for the same channel when the
channel is absent. -/
theorem statusGet_append_self (st : List (ℤ × ℤ)) (ch t : ℤ)
    (h : statusGet st ch = none) :
    statusGet (st ++ [(ch, t)]) ch = some t := by
  unfold statusGet at *
  rw [Option.map_eq_none'] at h
  rw [List.find?_append, h]
  rw [List.find?_cons_of_pos _ (by simp)]
  rfl

/-- `statusGet` after deleting a channel's entries. -/
theorem statusGet_erase_self (st : List (ℤ × ℤ)) (ch : ℤ) :
    statusGet (st.filter fun p => decide (p.1 ≠ ch)) ch = none := by
  unfold statusGet
  rw [Option.map_eq_none']
  rw [List.find?_eq_none]
  intro x hx
  rw [List.mem_filter] at hx
  simp only [decide_eq_true_eq] at hx ⊢
  exact hx.2

/-- `statusGet` at another channel is unchanged by deletion. -/
theorem statusGet_erase_ne (st : List (ℤ × ℤ)) (ch c : ℤ) (h : c ≠ ch) :
    statusGet (st.filter fun p => decide (p.1 ≠ ch)) c = statusGet st c := by
  unfold statusGet
  rw [find?_filter_of_imp]
  intro x hx
  simp only [decide_eq_true_eq] at hx ⊢
  rw [hx]
  exact h

/-- Unfolding `pairsScanGo` on a cons with the pedal up. -/
theorem pairsScanGo_cons_none (m : PedalMessage) (r : List PedalMessage) :
    pairsScanGo none (m :: r)
      = if m.data = 1 then pairsScanGo (some m.tick) r else pairsScanGo none r := rfl

/-- Unfolding `pairsScanGo` on a cons with the pedal down. -/
theorem pairsScanGo_cons_some (t : ℤ) (m : PedalMessage) (r : List PedalMessage) :
    pairsScanGo (some t) (m :: r)
      = if m.data = 0 then (t, m.tick) :: pairsScanGo none r
        else pairsScanGo (some t) r := rfl

/-- Unfolding `openAfter` on a cons with the pedal up. -/
theorem openAfter_cons_none (m : PedalMessage) (r : List PedalMessage) :
    openAfter none (m :: r)
      = openAfter (if m.data = 1 then some m.tick else none) r := rfl

/-- Unfolding `openAfter` on a cons with the pedal down. -/
theorem openAfter_cons_some (t : ℤ) (m : PedalMessage) (r : List PedalMessage) :
    openAfter (some t) (m :: r)
      = openAfter (if m.data = 0 then none else some t) r := rfl

/-- The per-channel reading of the `_build_pedal_intervals` fold: for
every channel, the interval list grows by the matched pairs of the
channel's messages and the status is the channel's open tick, however
the channels interleave. -/
theorem pedal_fold_channel (L : List PedalMessage) (st : PedalScanState) (c : ℤ) :
    (L.foldl pedalIntervalStep st).intervals c
      = st.intervals c ++
        pairsScanGo (statusGet st.status c) (L.filter fun x => decide (x.channel = c)) ∧
    statusGet (L.foldl pedalIntervalStep st).status c
      = openAfter (statusGet st.status c) (L.filter fun x => decide (x.channel = c)) := by
  induction L generalizing st with
  | nil => simp [pairsScanGo, openAfter]
  | cons m L ih =>
    rw [List.foldl_cons, List.filter_cons]
    by_cases hc : m.channel = c
    · rw [if_pos (by simp [hc])]
      by_cases h1 : m.data = 1
      · cases hs : statusGet st.status c with
        | none =>
          have hstep : pedalIntervalStep st m =
              ⟨st.intervals, st.status ++ [(m.channel, m.tick)]⟩ := by
            unfold pedalIntervalStep
            rw [if_pos ⟨h1, by rw [hc]; exact hs⟩]
          rw [hstep]
          rcases ih ⟨st.intervals, st.status ++ [(m.channel, m.tick)]⟩ with ⟨ih1, ih2⟩
          rw [ih1, ih2]
          have hget : statusGet (st.status ++ [(m.channel, m.tick)]) c = some m.tick := by
            rw [hc]
            exact statusGet_append_self st.status c m.tick (by rw [← hc] at hs ⊢; exact hs)
          rw [hget, pairsScanGo_cons_none, openAfter_cons_none, if_pos h1, if_pos h1]
          exact ⟨rfl, rfl⟩
        | some s =>
          have hstep : pedalIntervalStep st m = st := by
            simp [pedalIntervalStep, hc, hs, h1]
          rw [hstep]
          rcases ih st with ⟨ih1, ih2⟩
          rw [ih1, ih2, hs, pairsScanGo_cons_some, openAfter_cons_some,
            if_neg (by omega), if_neg (by omega)]
          exact ⟨rfl, rfl⟩
      · cases hs : statusGet st.status c with
        | none =>
          have hstep : pedalIntervalStep st m = st := by
            simp [pedalIntervalStep, hc, hs, h1]
          rw [hstep]
          rcases ih st with ⟨ih1, ih2⟩
          rw [ih1, ih2, hs, pairsScanGo_cons_none, openAfter_cons_none,
            if_neg h1, if_neg h1]
          exact ⟨rfl, rfl⟩
        | some s =>
          by_cases h0 : m.data = 0
          · have hstep : pedalIntervalStep st m =
                ⟨fun x => if x = m.channel then st.intervals x ++ [(s, m.tick)]
                          else st.intervals x,
                 st.status.filter fun p => decide (p.1 ≠ m.channel)⟩ := by
              simp [pedalIntervalStep, hc, hs, h1, h0]
            rw [hstep]
            rcases ih ⟨fun x => if x = m.channel then st.intervals x ++ [(s, m.tick)]
                          else st.intervals x,
                 st.status.filter fun p => decide (p.1 ≠ m.channel)⟩ with ⟨ih1, ih2⟩
            rw [ih1, ih2]
            have hget : statusGet (st.status.filter fun p => decide (p.1 ≠ m.channel)) c
                = none := by
              rw [← hc]
              exact statusGet_erase_self st.status m.channel
            rw [hget, pairsScanGo_cons_some, openAfter_cons_some, if_pos h0, if_pos h0]
            constructor
            · show (if c = m.channel then _ else _) ++ _ = _
              rw [if_pos hc.symm]
              simp
            · rfl
          · have hstep : pedalIntervalStep st m = st := by
              simp [pedalIntervalStep, hc, hs, h1, h0]
            rw [hstep]
            rcases ih st with ⟨ih1, ih2⟩
            rw [ih1, ih2, hs, pairsScanGo_cons_some, openAfter_cons_some,
              if_neg h0, if_neg h0]
            exact ⟨rfl, rfl⟩
    · rw [if_neg (by simp [hc])]
      have hpres : (pedalIntervalStep st m).intervals c = st.intervals c ∧
          statusGet (pedalIntervalStep st m).status c = statusGet st.status c := by
        by_cases hA : m.data = 1 ∧ statusGet st.status m.channel = none
        · have hstep : pedalIntervalStep st m =
              ⟨st.intervals, st.status ++ [(m.channel, m.tick)]⟩ := by
            unfold pedalIntervalStep
            rw [if_pos hA]
          rw [hstep]
          exact ⟨rfl, statusGet_append_ne st.status m.channel m.tick c
            fun h => hc h.symm⟩
        · cases hs : statusGet st.status m.channel with
          | none =>
            have hd1 : m.data ≠ 1 := fun hh => hA ⟨hh, hs⟩
            have hstep : pedalIntervalStep st m = st := by
              simp [pedalIntervalStep, hs, hd1]
            rw [hstep]
            exact ⟨rfl, rfl⟩
          | some s =>
            by_cases h0 : m.data = 0
            · have hstep : pedalIntervalStep st m =
                  ⟨fun x => if x = m.channel then st.intervals x ++ [(s, m.tick)]
                            else st.intervals x,
                   st.status.filter fun p => decide (p.1 ≠ m.channel)⟩ := by
                simp [pedalIntervalStep, hs, h0]
              rw [hstep]
              refine ⟨?_, statusGet_erase_ne st.status m.channel c
                fun h => hc h.symm⟩
              show (if c = m.channel then _ else _) = _
              rw [if_neg fun h => hc h.symm]
            · have hstep : pedalIntervalStep st m = st := by
                simp [pedalIntervalStep, hs, h0]
              rw [hstep]
              exact ⟨rfl, rfl⟩
      rcases ih (pedalIntervalStep st m) with ⟨ih1, ih2⟩
      rw [ih1, ih2, hpres.1, hpres.2]
      exact ⟨rfl, rfl⟩

/-- The keys of the status list stay distinct through the fold. -/
theorem pedal_fold_status_nodup (L : List PedalMessage) (st : PedalScanState)
    (h : (st.status.map Prod.fst).Nodup) :
    (((L.foldl pedalIntervalStep st).status).map Prod.fst).Nodup := by
  induction L generalizing st with
  | nil => exact h
  | cons m L ih =>
    rw [List.foldl_cons]
    refine ih _ ?_
    by_cases hA : m.data = 1 ∧ statusGet st.status m.channel = none
    · have hstep : pedalIntervalStep st m =
          ⟨st.intervals, st.status ++ [(m.channel, m.tick)]⟩ := by
        unfold pedalIntervalStep
        rw [if_pos hA]
      rw [hstep]
      show ((st.status ++ [(m.channel, m.tick)]).map Prod.fst).Nodup
      rw [List.map_append, List.nodup_append]
      refine ⟨h, by simp, ?_⟩
      intro x hx hx2
      rw [show ([(m.channel, m.tick)] : List (ℤ × ℤ)).map Prod.fst = [m.channel] from rfl,
        List.mem_singleton] at hx2
      subst hx2
      rcases List.mem_map.mp hx with ⟨p, hp, hp1⟩
      have hne : statusGet st.status m.channel ≠ none := by
        unfold statusGet
        rw [Ne, Option.map_eq_none', List.find?_eq_none]
        push_neg
        exact ⟨p, hp, by simp [hp1]⟩
      exact hne hA.2
    · cases hs : statusGet st.status m.channel with
      | none =>
        have hd1 : m.data ≠ 1 := fun hh => hA ⟨hh, hs⟩
        have hstep : pedalIntervalStep st m = st := by
          simp [pedalIntervalStep, hs, hd1]
        rw [hstep]
        exact h
      | some s =>
        by_cases h0 : m.data = 0
        · have hstep : pedalIntervalStep st m =
              ⟨fun x => if x = m.channel then st.intervals x ++ [(s, m.tick)]
                        else st.intervals x,
               st.status.filter fun p => decide (p.1 ≠ m.channel)⟩ := by
            simp [pedalIntervalStep, hs, h0]
          rw [hstep]
          exact List.Nodup.sublist ((List.filter_sublist _).map Prod.fst) h
        · have hstep : pedalIntervalStep st m = st := by
            simp [pedalIntervalStep, hs, h0]
          rw [hstep]
          exact h

/-- The closing loop over `pedal_status.items()`: with distinct keys it
appends the channel's open interval, closed at `fin`, to the channel's
list. -/
theorem pedal_close_fold (l : List (ℤ × ℤ)) (fin c : ℤ) :
    ∀ f0 : ℤ → List (ℤ × ℤ), (l.map Prod.fst).Nodup →
      (l.foldl (fun f p => fun x => if x = p.1 then f x ++ [(p.2, fin)] else f x) f0) c
        = f0 c ++ (match statusGet l c with
                   | some s => [(s, fin)]
                   | none => []) := by
  induction l with
  | nil =>
    intro f0 _
    simp [statusGet]
  | cons p l ih =>
    intro f0 hn
    rw [List.map_cons, List.nodup_cons] at hn
    rw [List.foldl_cons, ih _ hn.2]
    by_cases hc : c = p.1
    · have hget : statusGet (p :: l) c = some p.2 := by
        unfold statusGet
        rw [List.find?_cons_of_pos _ (by simp [hc])]
        rfl
      have hget2 : statusGet l c = none := by
        unfold statusGet
        rw [Option.map_eq_none', List.find?_eq_none]
        intro x hx
        simp only [decide_eq_true_eq]
        intro h1
        have hm : x.1 ∈ l.map Prod.fst := List.mem_map.mpr ⟨x, hx, rfl⟩
        rw [h1, hc] at hm
        exact hn.1 hm
      rw [hget, hget2]
      show (if c = p.1 then f0 c ++ [(p.2, fin)] else f0 c) ++ _ = _
      rw [if_pos hc]
      simp
    · have hget : statusGet (p :: l) c = statusGet l c := by
        unfold statusGet
        rw [List.find?_cons_of_neg _
          (by simp only [decide_eq_true_eq]; exact fun hh => hc hh.symm)]
      rw [hget]
      show (if c = p.1 then f0 c ++ [(p.2, fin)] else f0 c) ++ _ = _
      rw [if_neg hc]

/-- Claim C2 (counterexample): on `dC2` (notes ending at ticks 100 and
20, the later-starting note ending first, and a channel-0 pedal-on at
tick 5 never released), `_build_pedal_intervals` closes the open
interval at 20, the end of the last note message in tick order, not at
the maximum note end 100 claimed. -/
theorem build_pedal_intervals_counterexample :
    (build_pedal_intervals dC2).map (fun p => p.1 0) = some [(5, 20)] ∧
    (100 : ℤ) ∈ dC2.note_msgs.map (fun m => m.data.end_) ∧
    (∀ e ∈ dC2.note_msgs.map (fun m => m.data.end_), e ≤ 100) ∧
    ((5, 100) : ℤ × ℤ) ∉ [((5 : ℤ), (20 : ℤ))] := by
  refine ⟨by decide, by decide, by decide, by decide⟩

/-- Claim C2 (amended): for a document with a non-empty note list, every
channel whose pedal is still down after the last (tick-sorted) pedal
message gets its open interval closed at the end tick of the *last*
element of the tick-sorted note list (which can be smaller than the
maximum end tick over all notes); the closed pairs are exactly the
channel's matched on/off pairs. -/
theorem build_pedal_intervals_spec (d : MidiDict) (m : NoteMessage)
    (hl : d.note_msgs.getLast? = some m) (c : ℤ) :
    ∃ f d2, build_pedal_intervals d = some (f, d2) ∧
      d2 = { d with pedal_msgs := d.pedal_msgs.insertionSort pedalTickLe } ∧
      f c = pairsScan ((d.pedal_msgs.insertionSort pedalTickLe).filter
              fun x => decide (x.channel = c))
            ++ (match openAfter none
                  ((d.pedal_msgs.insertionSort pedalTickLe).filter
                    fun x => decide (x.channel = c)) with
                | some s => [(s, m.data.end_)]
                | none => []) := by
  unfold build_pedal_intervals
  rw [hl]
  refine ⟨_, _, rfl, rfl, ?_⟩
  have hnd := pedal_fold_status_nodup (d.pedal_msgs.insertionSort pedalTickLe)
    ⟨fun _ => [], []⟩ (by simp)
  rw [pedal_close_fold _ _ _ _ hnd]
  rcases pedal_fold_channel (d.pedal_msgs.insertionSort pedalTickLe)
    ⟨fun _ => [], []⟩ c with ⟨h1, h2⟩
  rw [h1, h2]
  have hg0 : statusGet ([] : List (ℤ × ℤ)) c = none := rfl
  rw [hg0]
  rfl

/-- Claim C2 (witness): the amended statement applied to `dC2`, whose
unreleased channel-0 pedal closes at 20, the end of the last note. -/
theorem build_pedal_intervals_spec_witness :
    ∃ f d2, build_pedal_intervals dC2 = some (f, d2) ∧
      d2 = { dC2 with pedal_msgs := dC2.pedal_msgs.insertionSort pedalTickLe } ∧
      f 0 = pairsScan ((dC2.pedal_msgs.insertionSort pedalTickLe).filter
              fun x => decide (x.channel = 0))
            ++ (match openAfter none
                  ((dC2.pedal_msgs.insertionSort pedalTickLe).filter
                    fun x => decide (x.channel = 0)) with
                | some s => [(s, (20 : ℤ))]
                | none => []) :=
  build_pedal_intervals_spec dC2 ⟨⟨61, 10, 20, 90⟩, 10, 0⟩ (by decide) 0

/-- Claim C3 (counterexample): a note-on at tick 10 followed by a
velocity-0 note-on (note-off) at the same tick 10.  Every open entry has
start = 10 = T, so the claim says the key's open list stays `[(10, 100)]`;
the source deletes the key whenever nothing was closed, so the open list
becomes empty (and no note is ever emitted for this pair). -/
theorem extract_note_off_same_tick_counterexample :
    (extractStep (extractStep emptyTrackData ⟨.note_on 60 100 0, 10⟩)
        ⟨.note_on 60 0 0, 10⟩).last_note_on (60, 0) = [] ∧
    (extractStep (extractStep emptyTrackData ⟨.note_on 60 100 0, 10⟩)
        ⟨.note_on 60 0 0, 10⟩).note_msgs = [] ∧
    (extractStep emptyTrackData ⟨.note_on 60 100 0, 10⟩).last_note_on (60, 0)
      = [(10, 100)] ∧
    ([] : List (ℤ × ℤ)) ≠ [(10, 100)] := by
  refine ⟨by decide, by decide, by decide, by decide⟩

/-- Claim C3 (amended): when a note-off (or velocity-0 note-on) for
`(pitch, channel)` at tick T reaches the pairer with open entries, a
note `(pitch, channel, start = s, end = T, velocity = v)` is emitted for
every open entry with `s ≠ T`; afterwards the key's open list is the
same-tick entries when *both* some entry was closed and some same-tick
entry exists, and otherwise the key is deleted — in particular it is
deleted, discarding the entries, when every open entry has `s = T`.
Other keys are untouched. -/
theorem extract_note_off_step (st : TrackData) (note channel T velocity : ℤ)
    (hkey : st.last_note_on (note, channel) ≠ [])
    (e : RawEvent)
    (he : e = ⟨.note_off note velocity channel, T⟩ ∨ e = ⟨.note_on note 0 channel, T⟩) :
    (extractStep st e).note_msgs
      = st.note_msgs ++
        ((st.last_note_on (note, channel)).filter fun sv => decide (sv.1 ≠ T)).map
          (fun sv => ⟨⟨note, sv.1, T, sv.2⟩, sv.1, channel⟩) ∧
    (extractStep st e).last_note_on (note, channel)
      = (if ((st.last_note_on (note, channel)).filter
              fun sv => decide (sv.1 ≠ T)) ≠ [] ∧
            ((st.last_note_on (note, channel)).filter
              fun sv => decide (sv.1 = T)) ≠ []
         then (st.last_note_on (note, channel)).filter fun sv => decide (sv.1 = T)
         else []) ∧
    (∀ k, k ≠ (note, channel) → (extractStep st e).last_note_on k = st.last_note_on k) := by
  have hmain : extractStep st e = closeNotes st note channel T := by
    rcases he with rfl | rfl
    · rfl
    · simp [extractStep]
  rw [hmain]
  unfold closeNotes
  have hie : (st.last_note_on (note, channel)).isEmpty = false :=
    List.isEmpty_eq_false.mpr hkey
  rw [if_neg (by rw [hie]; exact Bool.false_ne_true)]
  refine ⟨rfl, ?_, ?_⟩
  · simp only [List.length_pos, eq_self_iff_true, if_true]
  · intro k hk
    simp [hk]

/-- Claim C3 (witness): the amended step rule applied to a state with
one open channel-0 note started at tick 5 and a note-off at tick 9. -/
theorem extract_note_off_step_witness :
    (extractStep stC3 ⟨.note_off 60 64 0, 9⟩).note_msgs
      = stC3.note_msgs ++
        ((stC3.last_note_on (60, 0)).filter fun sv => decide (sv.1 ≠ 9)).map
          (fun sv => ⟨⟨60, sv.1, 9, sv.2⟩, sv.1, 0⟩) :=
  (extract_note_off_step stC3 60 0 9 64 (by decide) _ (Or.inl rfl)).1

/-- Claim C6 (code bug, evaluation): on `dC6`, `remove_redundant_pedals`
returns the document unchanged: the channel-1 pair `[15, 30]` is useful
(a channel-1 note ends at 20), but the never-released channel-0
pedal-on at tick 10 is *not* removed because the never-closed check
compares the message index against the end of the whole pedal list,
not the end of the channel's messages — channel 0 has notes, so the
claim requires this trailing unmatched pedal-on to be gone. -/
theorem remove_redundant_pedals_trailing_on_retained :
    remove_redundant_pedals dC6 = dC6 ∧
    (dC6.pedal_msgs.filter fun m => decide (m.channel = 0)) = [⟨1, 10, 0⟩] ∧
    (dC6.note_msgs.filter fun m => decide (m.channel = 0)) ≠ [] ∧
    openAfter none (dC6.pedal_msgs.filter fun m => decide (m.channel = 0)) = some 10 := by
  refine ⟨by decide, by decide, by decide, by decide⟩

/-- `get?` at the junction position of an append. -/
theorem get?_append_cons {α : Type} (pre : List α) (x : α) (r : List α) :
    (pre ++ x :: r).get? pre.length = some x := by
  induction pre with
  | nil => rfl
  | cons a pre ih => exact ih

/-- `set` at the junction position of an append. -/
theorem set_append_cons {α : Type} (pre : List α) (x v : α) (r : List α) :
    (pre ++ x :: r).set pre.length v = pre ++ v :: r := by
  induction pre with
  | nil => rfl
  | cons a pre ih => simp [List.set, ih]

/-- `overlapScanSet` at the junction position. -/
theorem overlapScanSet_append_cons (pre : List (ℕ × NoteMessage))
    (cur : ℕ × NoteMessage) (r : List (ℕ × NoteMessage)) (e : ℤ) :
    overlapScanSet (pre ++ cur :: r) pre.length e
      = pre ++ (cur.1, withEnd cur.2 e) :: r := by
  unfold overlapScanSet
  rw [get?_append_cons]
  dsimp only
  rw [set_append_cons]

/-- The adjacent-overlap scan, started just past a prefix, is the
positional trim of the remaining elements. -/
theorem overlapScanGo_suffix (r : List (ℕ × NoteMessage)) :
    ∀ (pre : List (ℕ × NoteMessage)) (cur : ℕ × NoteMessage),
      overlapScanGo r.length (pre ++ cur :: r) (pre.length + 1) cur.2.data.end_
        = pre ++ trimPairs (cur :: r) := by
  induction r with
  | nil =>
    intro pre cur
    rfl
  | cons y r ih =>
    intro pre cur
    have hg : (pre ++ cur :: y :: r).get? (pre.length + 1) = some y := by
      have := get?_append_cons (pre ++ [cur]) y r
      simpa using this
    show overlapScanGo (r.length + 1) (pre ++ cur :: y :: r) (pre.length + 1)
        cur.2.data.end_ = _
    rw [overlapScanGo, hg]
    dsimp only
    have hidx : ¬(pre.length + 1 = 0) := Nat.succ_ne_zero _
    by_cases hcond : cur.2.data.end_ > y.2.data.start
    · rw [if_pos hcond, if_neg hidx]
      have h1 : pre.length + 1 - 1 = pre.length := rfl
      rw [h1, overlapScanSet_append_cons]
      rw [show trimPairs (cur :: y :: r)
          = (cur.1, withEnd cur.2 y.2.data.start) :: trimPairs (y :: r) by
        unfold trimPairs
        rw [if_pos hcond]
        cases r <;> rfl]
      have hih := ih (pre ++ [(cur.1, withEnd cur.2 y.2.data.start)]) y
      simpa using hih
    · rw [if_neg hcond]
      rw [show trimPairs (cur :: y :: r) = cur :: trimPairs (y :: r) by
        unfold trimPairs
        rw [if_neg hcond]
        cases r <;> rfl]
      have hih := ih (pre ++ [cur]) y
      simpa using hih

/-- On a group whose starts are nonnegative, sorting followed by the
index scan is sorting followed by the positional trim (the `-1`
sentinel never fires). -/
theorem resolveGroup_eq_trim (g : List (ℕ × NoteMessage))
    (h : ∀ p ∈ g, 0 ≤ p.2.data.start) :
    resolveGroup g = trimPairs (g.insertionSort idxNoteLe) := by
  unfold resolveGroup
  cases hs : g.insertionSort idxNoteLe with
  | nil => rfl
  | cons x s =>
    have hx : 0 ≤ x.2.data.start := by
      refine h x ?_
      have := List.perm_insertionSort idxNoteLe g
      rw [hs] at this
      exact this.subset (List.mem_cons_self x s)
    show overlapScanGo (x :: s).length (x :: s) 0 (-1) = trimPairs (x :: s)
    rw [show (x :: s).length = s.length + 1 from rfl]
    rw [overlapScanGo]
    have hg0 : (x :: s).get? 0 = some x := rfl
    rw [hg0]
    dsimp only
    rw [if_neg (by omega)]
    have := overlapScanGo_suffix s [] x
    simpa using this

/-- One-step unfolding of `trimPairs`. -/
theorem trimPairs_cons (y : ℕ × NoteMessage) (r : List (ℕ × NoteMessage)) :
    trimPairs (y :: r) = trimHead y r :: trimPairs r := by
  cases r <;> rfl

/-- `trimHead` keeps the position tag. -/
theorem trimHead_fst (y : ℕ × NoteMessage) (r : List (ℕ × NoteMessage)) :
    (trimHead y r).1 = y.1 := by
  cases r with
  | nil => rfl
  | cons z r =>
    unfold trimHead
    by_cases h : y.2.data.end_ > z.2.data.start <;> simp [h]

/-- `trimHead` keeps every note field except the end. -/
theorem trimHead_shape (y : ℕ × NoteMessage) (r : List (ℕ × NoteMessage)) :
    (trimHead y r).2.data.pitch = y.2.data.pitch ∧
    (trimHead y r).2.data.start = y.2.data.start ∧
    (trimHead y r).2.data.velocity = y.2.data.velocity ∧
    (trimHead y r).2.tick = y.2.tick ∧
    (trimHead y r).2.channel = y.2.channel := by
  cases r with
  | nil => exact ⟨rfl, rfl, rfl, rfl, rfl⟩
  | cons z r =>
    unfold trimHead
    by_cases h : y.2.data.end_ > z.2.data.start <;> simp [h, withEnd]

/-- The trimmed head's end never exceeds the original end. -/
theorem trimHead_end_le (y : ℕ × NoteMessage) (r : List (ℕ × NoteMessage)) :
    (trimHead y r).2.data.end_ ≤ y.2.data.end_ := by
  cases r with
  | nil => exact le_refl _
  | cons z r =>
    unfold trimHead
    by_cases h : y.2.data.end_ > z.2.data.start <;> simp [h, withEnd] <;> omega

/-- The trimmed head's end never exceeds the next start. -/
theorem trimHead_end_le_start (y z : ℕ × NoteMessage) (r : List (ℕ × NoteMessage)) :
    (trimHead y (z :: r)).2.data.end_ ≤ z.2.data.start := by
  unfold trimHead
  by_cases h : y.2.data.end_ > z.2.data.start <;> simp [h, withEnd] <;> omega

/-- The trimmed head's end is the original end or the next start. -/
theorem trimHead_end_cases (y : ℕ × NoteMessage) (r : List (ℕ × NoteMessage)) :
    (trimHead y r).2.data.end_ = y.2.data.end_ ∨
      (∃ z t, r = z :: t ∧ (trimHead y r).2.data.end_ = z.2.data.start) := by
  cases r with
  | nil => exact Or.inl rfl
  | cons z r =>
    unfold trimHead
    by_cases h : y.2.data.end_ > z.2.data.start
    · exact Or.inr ⟨z, r, rfl, by simp [h, withEnd]⟩
    · exact Or.inl (by simp [h])

/-- The trim keeps the position tags. -/
theorem trimPairs_map_fst (g : List (ℕ × NoteMessage)) :
    (trimPairs g).map Prod.fst = g.map Prod.fst := by
  induction g with
  | nil => rfl
  | cons y r ih =>
    rw [trimPairs_cons, List.map_cons, List.map_cons, ih, trimHead_fst]

/-- The trim keeps the start ticks positionally. -/
theorem trimPairs_map_start (g : List (ℕ × NoteMessage)) :
    (trimPairs g).map (fun p => p.2.data.start) = g.map (fun p => p.2.data.start) := by
  induction g with
  | nil => rfl
  | cons y r ih =>
    rw [trimPairs_cons, List.map_cons, List.map_cons, ih, (trimHead_shape y r).2.1]

/-- Adjacent trimmed entries are separated: each end is at most the
next start. -/
theorem trimPairs_chain (g : List (ℕ × NoteMessage)) :
    List.Chain' (fun a b => a.2.data.end_ ≤ b.2.data.start) (trimPairs g) := by
  induction g with
  | nil => simp [trimPairs]
  | cons y r ih =>
    rw [trimPairs_cons]
    rw [List.chain'_cons']
    refine ⟨?_, ih⟩
    intro b hb
    cases r with
    | nil => simp [trimPairs] at hb
    | cons z t =>
      rw [trimPairs_cons] at hb
      simp only [List.head?_cons, Option.mem_def, Option.some_inj] at hb
      subst hb
      rw [(trimHead_shape z t).2.1]
      exact trimHead_end_le_start y z t

/-- Every trimmed entry is an end-modified copy of a group entry with
the same position tag. -/
theorem trimPairs_mem_shape (g : List (ℕ × NoteMessage)) :
    ∀ q ∈ trimPairs g, ∃ p ∈ g, q.1 = p.1 ∧
      q.2.data.pitch = p.2.data.pitch ∧
      q.2.data.start = p.2.data.start ∧
      q.2.data.velocity = p.2.data.velocity ∧
      q.2.tick = p.2.tick ∧
      q.2.channel = p.2.channel := by
  induction g with
  | nil => simp [trimPairs]
  | cons y r ih =>
    rw [trimPairs_cons]
    intro q hq
    rcases List.mem_cons.mp hq with rfl | hq
    · exact ⟨y, List.mem_cons_self y r, trimHead_fst y r, trimHead_shape y r⟩
    · rcases ih q hq with ⟨p, hp, hrest⟩
      exact ⟨p, List.mem_cons_of_mem y hp, hrest⟩

/-- A group already separated adjacently is untouched by the trim. -/
theorem trimPairs_eq_self (g : List (ℕ × NoteMessage))
    (h : List.Chain' (fun a b => a.2.data.end_ ≤ b.2.data.start) g) :
    trimPairs g = g := by
  induction g with
  | nil => rfl
  | cons y r ih =>
    rw [trimPairs_cons]
    rcases List.chain'_cons'.mp h with ⟨hhead, htail⟩
    have hy : trimHead y r = y := by
      cases r with
      | nil => rfl
      | cons z t =>
        unfold trimHead
        dsimp only
        rw [if_neg]
        have := hhead z (by simp)
        omega
    rw [hy, ih htail]

/-- Membership in a position-tagged group. -/
theorem mem_groupOf (l : List NoteMessage) (k : ℤ × ℤ) (q : ℕ × NoteMessage) :
    q ∈ groupOf l k ↔ l.get? q.1 = some q.2 ∧ noteGroupKey q.2 = k := by
  unfold groupOf
  rw [List.mem_filter, List.mem_enum_iff_get?]
  simp

/-- Position tags are pairwise distinct in the enumerated list. -/
theorem pairwise_fst_ne_enum (l : List NoteMessage) :
    List.Pairwise (fun p q : ℕ × NoteMessage => p.1 ≠ q.1) l.enum := by
  have h1 : (l.enum.map Prod.fst).Nodup := by
    rw [List.enum_map_fst]
    exact List.nodup_range _
  rw [List.Nodup, List.pairwise_map] at h1
  exact h1

/-- Position tags are pairwise distinct in a group. -/
theorem pairwise_fst_ne_groupOf (l : List NoteMessage) (k : ℤ × ℤ) :
    List.Pairwise (fun p q : ℕ × NoteMessage => p.1 ≠ q.1) (groupOf l k) := by
  exact List.Pairwise.sublist (List.filter_sublist _) (pairwise_fst_ne_enum l)

/-- Position tags are pairwise distinct in the sorted group. -/
theorem pairwise_fst_ne_sorted (l : List NoteMessage) (k : ℤ × ℤ) :
    List.Pairwise (fun p q : ℕ × NoteMessage => p.1 ≠ q.1)
      ((groupOf l k).insertionSort idxNoteLe) := by
  refine (List.Perm.pairwise_iff ?_ (List.perm_insertionSort idxNoteLe _)).mpr
    (pairwise_fst_ne_groupOf l k)
  intro x y h
  exact h.symm

/-- Members of the sorted group are entries of the note list with the
group's key. -/
theorem mem_sorted_groupOf (l : List NoteMessage) (k : ℤ × ℤ)
    (q : ℕ × NoteMessage) (hq : q ∈ (groupOf l k).insertionSort idxNoteLe) :
    l.get? q.1 = some q.2 ∧ noteGroupKey q.2 = k :=
  (mem_groupOf l k q).mp ((List.perm_insertionSort idxNoteLe _).subset hq)

/-- A chain relation extends to a pairwise relation through a second
pairwise relation that composes on the right. -/
theorem chain'_pairwise_trans {α : Type} {R S : α → α → Prop}
    (hcomp : ∀ a b c, R a b → S b c → R a c) :
    ∀ {l : List α}, List.Chain' R l → List.Pairwise S l → List.Pairwise R l := by
  intro l
  induction l with
  | nil => intro _ _; exact List.Pairwise.nil
  | cons a t ih =>
    intro hc hp
    rcases List.chain'_cons'.mp hc with ⟨hhead, htail⟩
    rw [List.pairwise_cons] at hp
    rw [List.pairwise_cons]
    refine ⟨?_, ih htail hp.2⟩
    intro b hb
    cases t with
    | nil => cases hb
    | cons x t' =>
      have hax : R a x := hhead x rfl
      rcases List.mem_cons.mp hb with rfl | hb'
      · exact hax
      · rcases List.pairwise_cons.mp hp.2 with ⟨hx, -⟩
        exact hcomp a x b hax (hx b hb')

/-- A transitive chain relation is pairwise. -/
theorem chain'_pairwise_of_trans {α : Type} {R : α → α → Prop}
    (htrans : ∀ a b c, R a b → R b c → R a c) :
    ∀ {l : List α}, List.Chain' R l → List.Pairwise R l := by
  intro l
  induction l with
  | nil => intro _; exact List.Pairwise.nil
  | cons a t ih =>
    intro hc
    rcases List.chain'_cons'.mp hc with ⟨hhead, htail⟩
    have hpt := ih htail
    rw [List.pairwise_cons]
    refine ⟨?_, hpt⟩
    intro b hb
    cases t with
    | nil => cases hb
    | cons x t' =>
      have hax : R a x := hhead x rfl
      rcases List.mem_cons.mp hb with rfl | hb'
      · exact hax
      · rcases List.pairwise_cons.mp hpt with ⟨hx, -⟩
        exact htrans a x b hax (hx b hb')

/-- The trimmed sorted group is pairwise separated: every earlier entry
ends no later than every later entry starts. -/
theorem trim_sorted_pairwise_sep (l : List NoteMessage) (k : ℤ × ℤ) :
    List.Pairwise (fun a b : ℕ × NoteMessage => a.2.data.end_ ≤ b.2.data.start)
      (trimPairs ((groupOf l k).insertionSort idxNoteLe)) := by
  have hsorted : List.Pairwise idxNoteLe ((groupOf l k).insertionSort idxNoteLe) :=
    List.sorted_insertionSort idxNoteLe (groupOf l k)
  have hstart0 : List.Pairwise
      (fun a b : ℕ × NoteMessage => a.2.data.start ≤ b.2.data.start)
      ((groupOf l k).insertionSort idxNoteLe) := by
    refine hsorted.imp ?_
    intro a b hab
    unfold idxNoteLe at hab
    omega
  have hstart : List.Pairwise
      (fun a b : ℕ × NoteMessage => a.2.data.start ≤ b.2.data.start)
      (trimPairs ((groupOf l k).insertionSort idxNoteLe)) := by
    have hm : (trimPairs ((groupOf l k).insertionSort idxNoteLe)).map
        (fun p => p.2.data.start)
        = ((groupOf l k).insertionSort idxNoteLe).map (fun p => p.2.data.start) :=
      trimPairs_map_start _
    have h1 : List.Pairwise (fun u v : ℤ => u ≤ v)
        (((groupOf l k).insertionSort idxNoteLe).map (fun p => p.2.data.start)) :=
      List.pairwise_map.mpr hstart0
    rw [← hm] at h1
    exact List.pairwise_map.mp h1
  refine chain'_pairwise_trans ?_ (trimPairs_chain _) hstart
  intro a b c hab hbc
  calc a.2.data.end_ ≤ b.2.data.start := hab
    _ ≤ c.2.data.start := hbc

/-- Separated entries do not overlap. -/
theorem sep_not_overlap (a b : ℕ × NoteMessage)
    (h : a.2.data.end_ ≤ b.2.data.start) : ¬ notesOverlap a.2 b.2 := by
  rintro ⟨-, hr⟩
  unfold rangesOverlap at hr
  omega

/-- `notesOverlap` is symmetric. -/
theorem notesOverlap_symm (a b : NoteMessage) (h : notesOverlap a b) :
    notesOverlap b a := by
  rcases h with ⟨hk, hr⟩
  refine ⟨hk.symm, ?_⟩
  unfold rangesOverlap at *
  omega

/-- The positional reading of `resolve_overlaps_notes`. -/
theorem resolve_notes_get? (l : List NoteMessage) (i : ℕ) :
    (resolve_overlaps_notes l).get? i
      = (l.get? i).map (fun n =>
          match (resolveGroup (groupOf l (noteGroupKey n))).find?
              (fun q => decide (q.1 = i)) with
          | some q => q.2
          | none => n) := by
  unfold resolve_overlaps_notes
  rw [List.get?_map, List.get?_enum]
  cases l.get? i <;> rfl

/-- Every note position of a group finds its processed entry. -/
theorem resolveGroup_find_hit (l : List NoteMessage) (k : ℤ × ℤ) (i : ℕ)
    (n : NoteMessage) (hst : ∀ m ∈ l, 0 ≤ m.data.start)
    (hi : l.get? i = some n) (hk : noteGroupKey n = k) :
    ∃ q, (resolveGroup (groupOf l k)).find? (fun q => decide (q.1 = i)) = some q ∧
      q ∈ trimPairs ((groupOf l k).insertionSort idxNoteLe) ∧ q.1 = i := by
  have hgrp : ∀ p ∈ groupOf l k, 0 ≤ p.2.data.start := by
    intro p hp
    rcases (mem_groupOf l k p).mp hp with ⟨hg, -⟩
    exact hst p.2 (List.get?_mem hg)
  rw [resolveGroup_eq_trim _ hgrp]
  have hmem : (i, n) ∈ (groupOf l k).insertionSort idxNoteLe :=
    (List.perm_insertionSort idxNoteLe _).mem_iff.mpr
      ((mem_groupOf l k (i, n)).mpr ⟨hi, hk⟩)
  have hfst : i ∈ (trimPairs ((groupOf l k).insertionSort idxNoteLe)).map Prod.fst := by
    rw [trimPairs_map_fst]
    exact List.mem_map.mpr ⟨(i, n), hmem, rfl⟩
  rcases List.mem_map.mp hfst with ⟨q0, hq0, hq0i⟩
  have hsome : ((trimPairs ((groupOf l k).insertionSort idxNoteLe)).find?
      (fun q => decide (q.1 = i))).isSome := by
    rw [List.find?_isSome]
    exact ⟨q0, hq0, by simp [hq0i]⟩
  rcases Option.isSome_iff_exists.mp hsome with ⟨q, hq⟩
  refine ⟨q, hq, List.mem_of_find?_eq_some hq, ?_⟩
  have := List.find?_some hq
  simpa using this

/-- A trimmed entry at position `i` is the end-modified copy of the
note at position `i` and keeps its group key. -/
theorem trim_entry_eq (l : List NoteMessage) (k : ℤ × ℤ) (q : ℕ × NoteMessage)
    (hq : q ∈ trimPairs ((groupOf l k).insertionSort idxNoteLe))
    (n : NoteMessage) (hi : l.get? q.1 = some n) :
    q.2.data.pitch = n.data.pitch ∧ q.2.data.start = n.data.start ∧
    q.2.data.velocity = n.data.velocity ∧ q.2.tick = n.tick ∧
    q.2.channel = n.channel ∧ noteGroupKey q.2 = k := by
  rcases trimPairs_mem_shape _ q hq with ⟨p, hp, hfst, hpi, hstt, hvel, htk, hch⟩
  rcases mem_sorted_groupOf l k p hp with ⟨hget, hkey⟩
  rw [hfst, hget] at hi
  injection hi with hi
  subst hi
  refine ⟨hpi, hstt, hvel, htk, hch, ?_⟩
  unfold noteGroupKey at *
  rw [hch, hpi]
  exact hkey

/-- Claim C8 (amended): after `resolve_overlaps` (on a document whose
note starts are nonnegative, the documented tick invariant) no two note
messages of the same channel and pitch have intersecting
`[start, end)` ranges, and every note keeps its pitch, start, velocity,
tick and channel; the spec's two-note example produces `(0, 50)` and
`(50, 150)`; and a document whose notes are pairwise non-overlapping
*and of positive length* is returned unchanged (a zero-length note can
be overlap-free and still force a rewrite, hence the length proviso). -/
theorem resolve_overlaps_spec :
    (∀ d : MidiDict, (∀ n ∈ d.note_msgs, 0 ≤ n.data.start) →
      List.Pairwise (fun a b => ¬ notesOverlap a b) (resolve_overlaps d).note_msgs) ∧
    (∀ d : MidiDict, (∀ n ∈ d.note_msgs, 0 ≤ n.data.start) → ∀ i : ℕ,
      ((resolve_overlaps d).note_msgs.get? i).map
          (fun m => (m.data.pitch, m.data.start, m.data.velocity, m.tick, m.channel))
        = (d.note_msgs.get? i).map
          (fun m => (m.data.pitch, m.data.start, m.data.velocity, m.tick, m.channel))) ∧
    ((resolve_overlaps dC8ex).note_msgs.map (fun m => (m.data.start, m.data.end_))
        = [(0, 50), (50, 150)]) ∧
    (∀ d : MidiDict,
      (∀ n ∈ d.note_msgs, 0 ≤ n.data.start ∧ n.data.start < n.data.end_) →
      List.Pairwise (fun a b => ¬ notesOverlap a b) d.note_msgs →
      resolve_overlaps d = d) := by
  refine ⟨?_, ?_, ?_, ?_⟩
  · intro d hst
    show List.Pairwise _ (resolve_overlaps_notes d.note_msgs)
    unfold resolve_overlaps_notes
    rw [List.pairwise_map]
    refine List.Pairwise.imp_of_mem ?_ (pairwise_fst_ne_enum d.note_msgs)
    intro p q hp hq hne
    have hpget : d.note_msgs.get? p.1 = some p.2 := List.mem_enum_iff_get?.mp hp
    have hqget : d.note_msgs.get? q.1 = some q.2 := List.mem_enum_iff_get?.mp hq
    rcases resolveGroup_find_hit d.note_msgs (noteGroupKey p.2) p.1 p.2 hst hpget rfl
      with ⟨qa, hfa, hma, hia⟩
    rcases resolveGroup_find_hit d.note_msgs (noteGroupKey q.2) q.1 q.2 hst hqget rfl
      with ⟨qb, hfb, hmb, hib⟩
    rw [hfa, hfb]
    dsimp only
    have hA := trim_entry_eq d.note_msgs (noteGroupKey p.2) qa hma p.2
      (by rw [hia]; exact hpget)
    have hB := trim_entry_eq d.note_msgs (noteGroupKey q.2) qb hmb q.2
      (by rw [hib]; exact hqget)
    by_cases hkey : noteGroupKey p.2 = noteGroupKey q.2
    · rw [← hkey] at hmb
      have hpw := (trim_sorted_pairwise_sep d.note_msgs (noteGroupKey p.2)).imp
        (fun {a b} hab => sep_not_overlap a b hab)
      have hsym : Symmetric (fun a b : ℕ × NoteMessage => ¬ notesOverlap a.2 b.2) := by
        intro a b hab hov
        exact hab (notesOverlap_symm _ _ hov)
      have hne2 : qa ≠ qb := by
        intro he
        apply hne
        rw [← hia, ← hib, he]
      exact hpw.forall hsym hma hmb hne2
    · intro hov
      apply hkey
      rw [← hA.2.2.2.2.2, ← hB.2.2.2.2.2]
      exact hov.1
  · intro d hst i
    show ((resolve_overlaps_notes d.note_msgs).get? i).map _ = _
    rw [resolve_notes_get?]
    cases hg : d.note_msgs.get? i with
    | none => rfl
    | some n =>
      rcases resolveGroup_find_hit d.note_msgs (noteGroupKey n) i n hst hg rfl
        with ⟨q, hf, hm, hqi⟩
      simp only [Option.map_some']
      rw [hf]
      dsimp only
      have hE := trim_entry_eq d.note_msgs (noteGroupKey n) q hm n (by rw [hqi]; exact hg)
      exact congrArg some (by rw [hE.1, hE.2.1, hE.2.2.1, hE.2.2.2.1, hE.2.2.2.2.1])
  · decide
  · intro d hsv hclean
    have hst : ∀ n ∈ d.note_msgs, 0 ≤ n.data.start := fun n hn => (hsv n hn).1
    have hnotes : resolve_overlaps_notes d.note_msgs = d.note_msgs := by
      apply List.ext_get?
      intro i
      rw [resolve_notes_get?]
      cases hg : d.note_msgs.get? i with
      | none => rfl
      | some n =>
        rcases resolveGroup_find_hit d.note_msgs (noteGroupKey n) i n hst hg rfl
          with ⟨q, hf, hm, hqi⟩
        simp only [Option.map_some']
        rw [hf]
        dsimp only
        have hov_enum : List.Pairwise
            (fun p q : ℕ × NoteMessage => ¬ notesOverlap p.2 q.2) d.note_msgs.enum := by
          have h0 := hclean
          rw [← List.enum_map_snd d.note_msgs] at h0
          exact List.pairwise_map.mp h0
        have hov_grp : List.Pairwise
            (fun p q : ℕ × NoteMessage => ¬ notesOverlap p.2 q.2)
            (groupOf d.note_msgs (noteGroupKey n)) := by
          unfold groupOf
          exact List.Pairwise.sublist (List.filter_sublist _) hov_enum
        have hov_sorted : List.Pairwise
            (fun p q : ℕ × NoteMessage => ¬ notesOverlap p.2 q.2)
            ((groupOf d.note_msgs (noteGroupKey n)).insertionSort idxNoteLe) := by
          refine (List.Perm.pairwise_iff ?_
            (List.perm_insertionSort idxNoteLe _)).mpr hov_grp
          intro a b hab hov
          exact hab (notesOverlap_symm _ _ hov)
        have hsorted : List.Pairwise idxNoteLe
            ((groupOf d.note_msgs (noteGroupKey n)).insertionSort idxNoteLe) :=
          List.sorted_insertionSort idxNoteLe _
        have hsep : List.Pairwise
            (fun a b : ℕ × NoteMessage => a.2.data.end_ ≤ b.2.data.start)
            ((groupOf d.note_msgs (noteGroupKey n)).insertionSort idxNoteLe) := by
          refine (hsorted.and hov_sorted).imp_of_mem ?_
          intro a b ha hb hab
          rcases mem_sorted_groupOf _ _ a ha with ⟨hga, hka⟩
          rcases mem_sorted_groupOf _ _ b hb with ⟨hgb, hkb⟩
          have hbb := hsv b.2 (List.get?_mem hgb)
          have hstle : a.2.data.start ≤ b.2.data.start := by
            have := hab.1
            unfold idxNoteLe at this
            omega
          have hknov : ¬ rangesOverlap a.2.data.start a.2.data.end_
              b.2.data.start b.2.data.end_ := by
            intro hr
            exact hab.2 ⟨hka.trans hkb.symm, hr⟩
          unfold rangesOverlap at hknov
          omega
        rw [trimPairs_eq_self _ hsep.chain'] at hm
        rcases mem_sorted_groupOf _ _ q hm with ⟨hgq, -⟩
        rw [hqi, hg] at hgq
        injection hgq with hgq
        rw [hgq]
    show { d with note_msgs := resolve_overlaps_notes d.note_msgs } = d
    rw [hnotes]

/-- Claim C8 (witness): the amended statement applied to a concrete
document — the no-op clause on the spec's already-clean result. -/
theorem resolve_overlaps_spec_witness :
    (∀ n ∈ dC4.note_msgs, 0 ≤ n.data.start ∧ n.data.start < n.data.end_) ∧
    resolve_overlaps dC4 = dC4 :=
  ⟨by decide, resolve_overlaps_spec.2.2.2 dC4 (by decide) (by decide)⟩

/-- Claim C8 (counterexample): `dC8` carries the notes `[0, 10)` and
`[5, 5)` on the same channel and pitch; the zero-length note makes the
pair non-overlapping (the ranges share no tick), yet `resolve_overlaps`
rewrites the first end from 10 to 5, so the call is not a no-op on this
overlap-free document, contradicting the claim's final clause. -/
theorem resolve_overlaps_counterexample :
    List.Pairwise (fun a b => ¬ notesOverlap a b) dC8.note_msgs ∧
    resolve_overlaps dC8 ≠ dC8 ∧
    (resolve_overlaps dC8).note_msgs.map (fun m => (m.data.start, m.data.end_))
      = [(0, 5), (5, 5)] := by
  refine ⟨by decide, by decide, by decide⟩

/-- Everything `resolve_overlaps_notes` produces at a position is the
end-modified trimmed entry of that position's group. -/
theorem resolve_notes_point (l : List NoteMessage)
    (hst : ∀ m ∈ l, 0 ≤ m.data.start) (i : ℕ) (m : NoteMessage)
    (hm : (resolve_overlaps_notes l).get? i = some m) :
    ∃ n q, l.get? i = some n ∧
      (resolveGroup (groupOf l (noteGroupKey n))).find?
          (fun x => decide (x.1 = i)) = some q ∧
      q ∈ trimPairs ((groupOf l (noteGroupKey n)).insertionSort idxNoteLe) ∧
      q.1 = i ∧ m = q.2 ∧
      m.data.pitch = n.data.pitch ∧ m.data.start = n.data.start ∧
      m.data.velocity = n.data.velocity ∧ m.tick = n.tick ∧
      m.channel = n.channel := by
  rw [resolve_notes_get? l i] at hm
  cases hg : l.get? i with
  | none =>
    rw [hg] at hm
    cases hm
  | some n =>
    rw [hg] at hm
    simp only [Option.map_some'] at hm
    rcases resolveGroup_find_hit l (noteGroupKey n) i n hst hg rfl with ⟨q, hf, hmt, hqi⟩
    rw [hf] at hm
    dsimp only at hm
    injection hm with hm
    subst hm
    have hE := trim_entry_eq l (noteGroupKey n) q hmt n (by rw [hqi]; exact hg)
    exact ⟨n, q, rfl, hf, hmt, hqi, rfl, hE.1, hE.2.1, hE.2.2.1, hE.2.2.2.1,
      hE.2.2.2.2.1⟩

/-- `resolve_overlaps_notes` keeps note starts nonnegative. -/
theorem resolve_notes_start_nonneg (l : List NoteMessage)
    (hst : ∀ m ∈ l, 0 ≤ m.data.start) :
    ∀ m ∈ resolve_overlaps_notes l, 0 ≤ m.data.start := by
  intro m hm
  rcases List.mem_iff_get?.mp hm with ⟨i, hi⟩
  rcases resolve_notes_point l hst i m hi with ⟨n, q, hg, -, -, -, -, -, hstt, -⟩
  rw [hstt]
  exact hst n (List.get?_mem hg)

/-- A list with pairwise distinct position tags has no duplicates. -/
theorem nodup_of_pairwise_fst_ne {l : List (ℕ × NoteMessage)}
    (h : List.Pairwise (fun p q : ℕ × NoteMessage => p.1 ≠ q.1) l) : l.Nodup :=
  h.imp fun hne heq => hne (by rw [heq])

/-- Two duplicate-free lists with the same members are permutations. -/
theorem perm_of_nodup_mem_iff {α : Type} [DecidableEq α] {l1 l2 : List α}
    (h1 : l1.Nodup) (h2 : l2.Nodup) (h : ∀ x, x ∈ l1 ↔ x ∈ l2) : l1.Perm l2 := by
  rw [List.perm_iff_count]
  intro a
  by_cases ha : a ∈ l1
  · rw [List.count_eq_one_of_mem h1 ha, List.count_eq_one_of_mem h2 ((h a).mp ha)]
  · rw [List.count_eq_zero.mpr ha, List.count_eq_zero.mpr fun hx => ha ((h a).mpr hx)]

/-- In a list with distinct position tags, `find?` on a member's tag
returns that member. -/
theorem find?_fst_unique {l : List (ℕ × NoteMessage)}
    (hnd : List.Pairwise (fun p q : ℕ × NoteMessage => p.1 ≠ q.1) l)
    {q : ℕ × NoteMessage} (hq : q ∈ l) :
    l.find? (fun x => decide (x.1 = q.1)) = some q := by
  have hsome : (l.find? fun x => decide (x.1 = q.1)).isSome := by
    rw [List.find?_isSome]
    exact ⟨q, hq, by simp⟩
  rcases Option.isSome_iff_exists.mp hsome with ⟨q2, hq2⟩
  have hmem := List.mem_of_find?_eq_some hq2
  have hpred := List.find?_some hq2
  simp only [decide_eq_true_eq] at hpred
  have hsym : Symmetric (fun p q : ℕ × NoteMessage => p.1 ≠ q.1) := by
    intro a b hab h
    exact hab h.symm
  have heq : q2 = q := by
    by_contra hne
    exact hnd.forall hsym hmem hq hne hpred
  rw [heq] at hq2
  exact hq2

/-- The trimmed sorted group has pairwise distinct position tags. -/
theorem pairwise_fst_ne_trim (l : List NoteMessage) (k : ℤ × ℤ) :
    List.Pairwise (fun p q : ℕ × NoteMessage => p.1 ≠ q.1)
      (trimPairs ((groupOf l k).insertionSort idxNoteLe)) := by
  have h1 : ((trimPairs ((groupOf l k).insertionSort idxNoteLe)).map Prod.fst).Nodup := by
    rw [trimPairs_map_fst]
    have h2 := pairwise_fst_ne_sorted l k
    rw [List.Nodup, List.pairwise_map]
    exact h2
  rw [List.Nodup, List.pairwise_map] at h1
  exact h1

/-- The trim of a sorted group is sorted on `(start, end)` values. -/
theorem trim_chain_vals :
    ∀ g : List (ℕ × NoteMessage), List.Pairwise idxNoteLe g →
      List.Chain' (fun a b => valLe (noteVal a) (noteVal b)) (trimPairs g) := by
  intro g
  induction g with
  | nil =>
    intro _
    simp [trimPairs]
  | cons y r ih =>
    intro hs
    rcases List.pairwise_cons.mp hs with ⟨hy, hr⟩
    rw [trimPairs_cons, List.chain'_cons']
    refine ⟨?_, ih hr⟩
    intro b hb
    cases r with
    | nil => simp [trimPairs] at hb
    | cons z t =>
      rw [trimPairs_cons] at hb
      simp only [List.head?_cons, Option.mem_def, Option.some_inj] at hb
      subst hb
      have h1 : idxNoteLe y z := hy z (List.mem_cons_self z t)
      have h2 := trimHead_end_le_start y z t
      have h3 := trimHead_end_le y (z :: t)
      have h4 := (trimHead_shape y (z :: t)).2.1
      have h5 := (trimHead_shape z t).2.1
      rcases trimHead_end_cases z t with h6 | ⟨w, t2, ht, h6⟩
      · unfold valLe noteVal idxNoteLe at *
        omega
      · have h7 : idxNoteLe z w := by
          subst ht
          rcases List.pairwise_cons.mp hr with ⟨hz, -⟩
          exact hz w (List.mem_cons_self w t2)
        unfold valLe noteVal idxNoteLe at *
        omega

/-- The trim of the sorted group of an already-resolved note list is
the identity: the second pass finds every group already adjacent-
separated in its new sorted order. -/
theorem trim_second_pass_id (l : List NoteMessage)
    (hst : ∀ m ∈ l, 0 ≤ m.data.start) (k : ℤ × ℤ) :
    trimPairs (((groupOf (resolve_overlaps_notes l) k)).insertionSort idxNoteLe)
      = ((groupOf (resolve_overlaps_notes l) k)).insertionSort idxNoteLe := by
  have hgrpst : ∀ p ∈ groupOf l k, 0 ≤ p.2.data.start := by
    intro p hp
    rcases (mem_groupOf l k p).mp hp with ⟨hg, -⟩
    exact hst p.2 (List.get?_mem hg)
  have hfstne := pairwise_fst_ne_trim l k
  have hmemAB : ∀ x, x ∈ groupOf (resolve_overlaps_notes l) k ↔
      x ∈ trimPairs ((groupOf l k).insertionSort idxNoteLe) := by
    intro x
    constructor
    · intro hx
      rcases (mem_groupOf _ k x).mp hx with ⟨hg2x, hkx⟩
      rcases resolve_notes_point l hst x.1 x.2 hg2x with
        ⟨n0, q0, hgn0, hf0, hmt0, hq0i, hxq, hpi, hstt, hvel, htk, hch⟩
      have hkn0 : noteGroupKey n0 = k := by
        unfold noteGroupKey at *
        rw [← hch, ← hpi]
        exact hkx
      rw [hkn0] at hmt0
      have hxeq : x = q0 := Prod.ext hq0i.symm hxq
      rw [hxeq]
      exact hmt0
    · intro hx
      rcases trimPairs_mem_shape _ x hx with ⟨p, hp, hfst, -⟩
      rcases mem_sorted_groupOf l k p hp with ⟨hgp, hkp⟩
      have hE := trim_entry_eq l k x hx p.2 (by rw [hfst]; exact hgp)
      have hg2x : (resolve_overlaps_notes l).get? x.1 = some x.2 := by
        rw [resolve_notes_get? l x.1]
        rw [show l.get? x.1 = some p.2 by rw [hfst]; exact hgp]
        simp only [Option.map_some']
        rw [hkp]
        rw [resolveGroup_eq_trim _ hgrpst]
        rw [find?_fst_unique hfstne hx]
      exact (mem_groupOf _ k x).mpr ⟨hg2x, hE.2.2.2.2.2⟩
  have hnd1 : (groupOf (resolve_overlaps_notes l) k).Nodup :=
    nodup_of_pairwise_fst_ne (pairwise_fst_ne_groupOf _ k)
  have hnd2 : (trimPairs ((groupOf l k).insertionSort idxNoteLe)).Nodup :=
    nodup_of_pairwise_fst_ne hfstne
  have hperm2 : ((groupOf (resolve_overlaps_notes l) k).insertionSort idxNoteLe).Perm
      (trimPairs ((groupOf l k).insertionSort idxNoteLe)) :=
    (List.perm_insertionSort idxNoteLe _).trans
      (perm_of_nodup_mem_iff hnd1 hnd2 hmemAB)
  have hs1 : List.Sorted valLe
      (((groupOf (resolve_overlaps_notes l) k).insertionSort idxNoteLe).map noteVal) := by
    refine List.pairwise_map.mpr ?_
    refine (List.sorted_insertionSort idxNoteLe _).imp ?_
    intro a b hab
    unfold idxNoteLe valLe noteVal at *
    omega
  have hs2 : List.Sorted valLe
      ((trimPairs ((groupOf l k).insertionSort idxNoteLe)).map noteVal) := by
    refine List.pairwise_map.mpr ?_
    refine chain'_pairwise_of_trans ?_
      (trim_chain_vals _ (List.sorted_insertionSort idxNoteLe _))
    intro a b c h1 h2
    unfold valLe noteVal at *
    omega
  have hvals :
      (((groupOf (resolve_overlaps_notes l) k).insertionSort idxNoteLe).map noteVal)
        = (trimPairs ((groupOf l k).insertionSort idxNoteLe)).map noteVal :=
    List.eq_of_perm_of_sorted (hperm2.map noteVal) hs1 hs2
  have hchainAv : List.Chain' (fun u v : ℤ × ℤ => u.2 ≤ v.1)
      ((trimPairs ((groupOf l k).insertionSort idxNoteLe)).map noteVal) := by
    rw [List.chain'_map]
    exact trimPairs_chain _
  rw [← hvals] at hchainAv
  have hchainS : List.Chain'
      (fun a b : ℕ × NoteMessage => a.2.data.end_ ≤ b.2.data.start)
      ((groupOf (resolve_overlaps_notes l) k).insertionSort idxNoteLe) :=
    (List.chain'_map noteVal).mp hchainAv
  exact trimPairs_eq_self _ hchainS

/-- Claim C9: `resolve_overlaps` is idempotent (on documents whose note
starts are nonnegative, the documented tick invariant): a second
application returns exactly the state of the first. -/
theorem resolve_overlaps_idempotent (d : MidiDict)
    (h : ∀ n ∈ d.note_msgs, 0 ≤ n.data.start) :
    resolve_overlaps (resolve_overlaps d) = resolve_overlaps d := by
  have hst' : ∀ m ∈ resolve_overlaps_notes d.note_msgs, 0 ≤ m.data.start :=
    resolve_notes_start_nonneg d.note_msgs h
  have hmain : resolve_overlaps_notes (resolve_overlaps_notes d.note_msgs)
      = resolve_overlaps_notes d.note_msgs := by
    apply List.ext_get?
    intro i
    rw [resolve_notes_get? (resolve_overlaps_notes d.note_msgs) i]
    cases hg2 : (resolve_overlaps_notes d.note_msgs).get? i with
    | none => rfl
    | some m =>
      simp only [Option.map_some']
      rcases resolveGroup_find_hit (resolve_overlaps_notes d.note_msgs)
        (noteGroupKey m) i m hst' hg2 rfl with ⟨q, hf, hmt, hqi⟩
      rw [hf]
      dsimp only
      rw [trim_second_pass_id d.note_msgs h (noteGroupKey m)] at hmt
      rcases mem_sorted_groupOf _ (noteGroupKey m) q hmt with ⟨hq2, -⟩
      rw [hqi, hg2] at hq2
      injection hq2 with hq2
      rw [hq2]
  show { (resolve_overlaps d) with
      note_msgs := resolve_overlaps_notes (resolve_overlaps d).note_msgs }
    = resolve_overlaps d
  show { (resolve_overlaps d) with
      note_msgs := resolve_overlaps_notes (resolve_overlaps_notes d.note_msgs) }
    = resolve_overlaps d
  rw [hmain]
  rfl

/-- Claim C9 (witness): idempotence on the spec's overlap example. -/
theorem resolve_overlaps_idempotent_witness :
    resolve_overlaps (resolve_overlaps dC8ex) = resolve_overlaps dC8ex :=
  resolve_overlaps_idempotent dC8ex (by decide)

/-! ### Claim C7: the round trip -/

/-- `dict_to_midi` split through `trackOf`. -/
theorem dict_to_midi_eq (d : MidiDict) :
    dict_to_midi d
      = deltaConvert 0 ((trackOf d).insertionSort rawLe)
          ++ [⟨.end_of_track, 0⟩] := rfl

/-- Absolute-tick conversion inverts delta conversion at a shared base
tick. -/
theorem absConvert_deltaConvert (l : List RawEvent) :
    ∀ t, absConvert t (deltaConvert t l) = l := by
  induction l with
  | nil => intro t; rfl
  | cons e rest ih =>
    intro t
    show RawEvent.mk e.body (e.time - t + t) :: absConvert (e.time - t + t) _ = _
    rw [sub_add_cancel]
    rw [ih e.time]

/-- Absolute-tick conversion of a track with one trailing message. -/
theorem absConvert_snoc (l : List RawEvent) (e : RawEvent) :
    ∀ t, ∃ u, absConvert t (l ++ [e]) = absConvert t l ++ [⟨e.body, u⟩] := by
  induction l with
  | nil => intro t; exact ⟨e.time + t, rfl⟩
  | cons a rest ih =>
    intro t
    obtain ⟨u, hu⟩ := ih (a.time + t)
    refine ⟨u, ?_⟩
    show RawEvent.mk a.body (a.time + t) :: absConvert (a.time + t) (rest ++ [e]) = _
    rw [hu]
    rfl

/-- The extractor ignores a trailing end-of-track message. -/
theorem extract_append_eot (l : List RawEvent) (t : ℤ) :
    extract_track_data (l ++ [⟨.end_of_track, t⟩]) = extract_track_data l := by
  unfold extract_track_data
  rw [List.foldl_append]
  rfl

/-- Claim C7 (counterexample): on the pedal-free document with one
zero-length, non-overlapping note, the assembled track pairs back to an
empty note list, so no multiset-equivalent document is reproduced. -/
theorem round_trip_counterexample :
    dC7.pedal_msgs = [] ∧
    List.Pairwise (fun a b => ¬ notesOverlap a b) dC7.note_msgs ∧
    (extract_track_data (absConvert 0 (dict_to_midi dC7))).note_msgs = [] ∧
    ¬ ((extract_track_data (absConvert 0 (dict_to_midi dC7))).note_msgs.map
        noteQuint).Perm (dC7.note_msgs.map noteQuint) := by
  refine ⟨rfl, by decide, by decide, ?_⟩
  intro h
  exact absurd (h.length_eq) (by decide)

/-- `closeNotes` reads and writes only the note list and the open-note
map. -/
theorem closeNotes_proj (st1 st2 : TrackData)
    (hn : st1.note_msgs = st2.note_msgs)
    (hl : st1.last_note_on = st2.last_note_on) (note channel T : ℤ) :
    (closeNotes st1 note channel T).note_msgs
        = (closeNotes st2 note channel T).note_msgs ∧
    (closeNotes st1 note channel T).last_note_on
        = (closeNotes st2 note channel T).last_note_on := by
  unfold closeNotes
  rw [hn, hl]
  by_cases h : (st2.last_note_on (note, channel)).isEmpty
  · rw [if_pos h, if_pos h]
    exact ⟨hn, hl⟩
  · rw [if_neg h, if_neg h]
    exact ⟨rfl, rfl⟩

/-- One extractor step reads and writes the note list and open-note map
independently of the other components. -/
theorem extractStep_proj (st1 st2 : TrackData)
    (hn : st1.note_msgs = st2.note_msgs)
    (hl : st1.last_note_on = st2.last_note_on) (e : RawEvent) :
    (extractStep st1 e).note_msgs = (extractStep st2 e).note_msgs ∧
    (extractStep st1 e).last_note_on = (extractStep st2 e).last_note_on := by
  obtain ⟨b, t⟩ := e
  cases b with
  | text s => exact ⟨hn, hl⟩
  | copyright s => exact ⟨hn, hl⟩
  | set_tempo tempo => exact ⟨hn, hl⟩
  | end_of_track => exact ⟨hn, hl⟩
  | program_change p c => exact ⟨hn, hl⟩
  | control_change c v ch =>
    dsimp only [extractStep]
    split <;> exact ⟨hn, hl⟩
  | note_on n v c =>
    dsimp only [extractStep]
    by_cases h1 : v > 0
    · rw [if_pos h1, if_pos h1]
      refine ⟨hn, funext fun k => ?_⟩
      show (if k = (n, c) then st1.last_note_on k ++ [(t, v)] else st1.last_note_on k) = _
      rw [hl]
    · rw [if_neg h1, if_neg h1]
      by_cases h0 : v = 0
      · rw [if_pos h0, if_pos h0]
        exact closeNotes_proj st1 st2 hn hl n c t
      · rw [if_neg h0, if_neg h0]
        exact ⟨hn, hl⟩
  | note_off n v c => exact closeNotes_proj st1 st2 hn hl n c t

/-- The extractor fold preserves equality of the note list and open-note
map. -/
theorem extract_fold_proj (l : List RawEvent) :
    ∀ st1 st2 : TrackData, st1.note_msgs = st2.note_msgs →
      st1.last_note_on = st2.last_note_on →
      (l.foldl extractStep st1).note_msgs = (l.foldl extractStep st2).note_msgs ∧
      (l.foldl extractStep st1).last_note_on
        = (l.foldl extractStep st2).last_note_on := by
  induction l with
  | nil => exact fun st1 st2 hn hl => ⟨hn, hl⟩
  | cons e rest ih =>
    intro st1 st2 hn hl
    obtain ⟨hn', hl'⟩ := extractStep_proj st1 st2 hn hl e
    exact ih (extractStep st1 e) (extractStep st2 e) hn' hl'

/-- A non-note message leaves the note list and open-note map of the
extractor state unchanged. -/
theorem extractStep_nonnote (st : TrackData) (e : RawEvent)
    (h : isNoteEvt e = false) :
    (extractStep st e).note_msgs = st.note_msgs ∧
    (extractStep st e).last_note_on = st.last_note_on := by
  obtain ⟨b, t⟩ := e
  cases b with
  | text s => exact ⟨rfl, rfl⟩
  | copyright s => exact ⟨rfl, rfl⟩
  | set_tempo tempo => exact ⟨rfl, rfl⟩
  | end_of_track => exact ⟨rfl, rfl⟩
  | program_change p c => exact ⟨rfl, rfl⟩
  | control_change c v ch =>
    dsimp only [extractStep]
    split <;> exact ⟨rfl, rfl⟩
  | note_on n v c => exact absurd h (by simp [isNoteEvt])
  | note_off n v c => exact absurd h (by simp [isNoteEvt])

/-- The note list and open-note map produced by the extractor depend
only on the note events of the track. -/
theorem extract_fold_filter_notes (l : List RawEvent) :
    ∀ st : TrackData,
      (l.foldl extractStep st).note_msgs
        = ((l.filter isNoteEvt).foldl extractStep st).note_msgs ∧
      (l.foldl extractStep st).last_note_on
        = ((l.filter isNoteEvt).foldl extractStep st).last_note_on := by
  induction l with
  | nil => exact fun st => ⟨rfl, rfl⟩
  | cons e rest ih =>
    intro st
    by_cases h : isNoteEvt e = true
    · rw [List.filter_cons, if_pos h]
      exact ih (extractStep st e)
    · have h' : isNoteEvt e = false := by simp [h]
      rw [List.filter_cons, if_neg (by simp [h'])]
      obtain ⟨hn, hl⟩ := extractStep_nonnote st e h'
      obtain ⟨hn1, hl1⟩ := ih (extractStep st e)
      obtain ⟨hn2, hl2⟩ :=
        extract_fold_proj (rest.filter isNoteEvt) (extractStep st e) st hn hl
      exact ⟨hn1.trans hn2, hl1.trans hl2⟩

/-- `closeNotes` acts on the key-`k` slice of the state as `perKeyClose`
when the closed key is `k`, and leaves the slice unchanged otherwise. -/
theorem closeNotes_key (st : TrackData) (n c T : ℤ) (k : ℤ × ℤ) :
    ((closeNotes st n c T).note_msgs.filter fun m => decide (keyNC m = k),
      (closeNotes st n c T).last_note_on k)
      = if (n, c) = k then
          perKeyClose k
            (st.note_msgs.filter fun m => decide (keyNC m = k), st.last_note_on k) T
        else (st.note_msgs.filter fun m => decide (keyNC m = k), st.last_note_on k) := by
  by_cases hk : (n, c) = k
  · subst hk
    rw [if_pos rfl]
    unfold closeNotes perKeyClose
    dsimp only
    by_cases he : (st.last_note_on (n, c)).isEmpty
    · rw [if_pos he, if_pos he]
    · rw [if_neg he, if_neg he]
      dsimp only
      refine Prod.ext ?_ ?_
      · show (st.note_msgs ++ _).filter _ = _
        rw [List.filter_append]
        congr 1
        rw [List.filter_eq_self]
        intro a ha
        rw [List.mem_map] at ha
        obtain ⟨sv, hsv, rfl⟩ := ha
        simp [keyNC]
      · show (if ((n : ℤ), (c : ℤ)) = (n, c) then _ else _) = _
        rw [if_pos rfl]
  · rw [if_neg hk]
    unfold closeNotes
    dsimp only
    by_cases he : (st.last_note_on (n, c)).isEmpty
    · rw [if_pos he]
    · rw [if_neg he]
      dsimp only
      refine Prod.ext ?_ ?_
      · show (st.note_msgs ++ _).filter _ = _
        rw [List.filter_append]
        have hnil : (List.filter (fun m => decide (keyNC m = k))
            ((List.filter (fun sv => decide (sv.1 ≠ T)) (st.last_note_on (n, c))).map
              fun sv => (⟨⟨n, sv.1, T, sv.2⟩, sv.1, c⟩ : NoteMessage))) = [] := by
          rw [List.filter_eq_nil]
          intro a ha
          rw [List.mem_map] at ha
          obtain ⟨sv, hsv, rfl⟩ := ha
          simpa [keyNC] using hk
        rw [hnil, List.append_nil]
      · show (if k = ((n : ℤ), (c : ℤ)) then _ else _) = _
        rw [if_neg (fun hh => hk hh.symm)]

/-- One extractor step acts on the key-`k` slice of the state as
`perKeyStep`. -/
theorem extractStep_key (st : TrackData) (e : RawEvent) (k : ℤ × ℤ) :
    ((extractStep st e).note_msgs.filter fun m => decide (keyNC m = k),
      (extractStep st e).last_note_on k)
      = perKeyStep k
          (st.note_msgs.filter fun m => decide (keyNC m = k), st.last_note_on k) e := by
  obtain ⟨b, t⟩ := e
  cases b with
  | text s => rfl
  | copyright s => rfl
  | set_tempo tempo => rfl
  | end_of_track => rfl
  | program_change p c => rfl
  | control_change c v ch =>
    dsimp only [extractStep, perKeyStep]
    split <;> rfl
  | note_on n v c =>
    dsimp only [extractStep, perKeyStep]
    by_cases h1 : v > 0
    · rw [if_pos h1]
      by_cases hk : (n, c) = k
      · rw [if_pos hk, if_pos h1]
        refine Prod.ext rfl ?_
        show (if k = (n, c) then st.last_note_on k ++ [(t, v)] else st.last_note_on k) = _
        rw [if_pos hk.symm]
      · rw [if_neg hk]
        refine Prod.ext rfl ?_
        show (if k = (n, c) then st.last_note_on k ++ [(t, v)] else st.last_note_on k) = _
        rw [if_neg (fun hh => hk hh.symm)]
    · rw [if_neg h1]
      by_cases h0 : v = 0
      · rw [if_pos h0]
        have := closeNotes_key st n c t k
        by_cases hk : (n, c) = k
        · rw [if_pos hk] at this
          rw [this, if_pos hk, if_neg h1, if_pos h0]
        · rw [if_neg hk] at this
          rw [this, if_neg hk]
      · rw [if_neg h0]
        by_cases hk : (n, c) = k
        · rw [if_pos hk, if_neg h1, if_neg h0]
        · rw [if_neg hk]
  | note_off n v c =>
    dsimp only [extractStep, perKeyStep]
    have := closeNotes_key st n c t k
    by_cases hk : (n, c) = k
    · rw [if_pos hk] at this
      rw [this, if_pos hk]
    · rw [if_neg hk] at this
      rw [this, if_neg hk]

/-- The extractor fold acts on the key-`k` slice of the state as the
fold of `perKeyStep`. -/
theorem extract_key_decomp (l : List RawEvent) :
    ∀ (st : TrackData) (k : ℤ × ℤ),
      ((l.foldl extractStep st).note_msgs.filter fun m => decide (keyNC m = k),
        (l.foldl extractStep st).last_note_on k)
        = l.foldl (perKeyStep k)
            (st.note_msgs.filter fun m => decide (keyNC m = k), st.last_note_on k) := by
  induction l with
  | nil => intro st k; rfl
  | cons e rest ih =>
    intro st k
    rw [List.foldl_cons, List.foldl_cons, ← extractStep_key st e k]
    exact ih (extractStep st e) k

/-- `perKeyStep` ignores events that are not note events of its key. -/
theorem perKeyStep_nonkey (k : ℤ × ℤ) (st : List NoteMessage × List (ℤ × ℤ))
    (e : RawEvent) (h : isKeyEvt k e = false) : perKeyStep k st e = st := by
  obtain ⟨b, t⟩ := e
  cases b with
  | text s => rfl
  | copyright s => rfl
  | set_tempo tempo => rfl
  | end_of_track => rfl
  | program_change p c => rfl
  | control_change c v ch => rfl
  | note_on n v c =>
    dsimp only [perKeyStep]
    rw [if_neg (by simpa [isKeyEvt] using h)]
  | note_off n v c =>
    dsimp only [perKeyStep]
    rw [if_neg (by simpa [isKeyEvt] using h)]

/-- The `perKeyStep` fold depends only on the note events of its key. -/
theorem perKey_fold_filter (k : ℤ × ℤ) (l : List RawEvent) :
    ∀ st, l.foldl (perKeyStep k) st
      = (l.filter (isKeyEvt k)).foldl (perKeyStep k) st := by
  induction l with
  | nil => intro st; rfl
  | cons e rest ih =>
    intro st
    by_cases h : isKeyEvt k e = true
    · rw [List.filter_cons, if_pos h, List.foldl_cons, List.foldl_cons]
      exact ih _
    · have h' : isKeyEvt k e = false := by simp [h]
      rw [List.filter_cons, if_neg (by simp [h']), List.foldl_cons,
        perKeyStep_nonkey k st e h']
      exact ih st

/-- `end_msgs` built over a track with one more note. -/
theorem buildEndMsgs_snoc (notes : List NoteMessage) (m : NoteMessage) :
    buildEndMsgs (notes ++ [m])
      = upsertEnd (buildEndMsgs notes) (keyCP m) (seOf m) := by
  unfold buildEndMsgs
  rw [List.foldl_append]
  rfl

/-- Upserting a key appends to that key's value. -/
theorem lookupEnd_upsert_self (l : List ((ℤ × ℤ) × List (ℤ × ℤ)))
    (k : ℤ × ℤ) (v : ℤ × ℤ) :
    lookupEnd (upsertEnd l k v) k = lookupEnd l k ++ [v] := by
  induction l with
  | nil => simp [lookupEnd, upsertEnd]
  | cons kv rest ih =>
    by_cases h : kv.1 = k
    · unfold upsertEnd
      rw [if_pos h]
      unfold lookupEnd
      rw [List.find?_cons_of_pos _ (by simpa using h),
        List.find?_cons_of_pos _ (by simpa using h)]
      rfl
    · unfold upsertEnd
      rw [if_neg h]
      unfold lookupEnd
      rw [List.find?_cons_of_neg _ (by simpa using h),
        List.find?_cons_of_neg _ (by simpa using h)]
      exact ih

/-- Upserting a key leaves other keys' values unchanged. -/
theorem lookupEnd_upsert_ne (l : List ((ℤ × ℤ) × List (ℤ × ℤ)))
    (k : ℤ × ℤ) (v : ℤ × ℤ) (k' : ℤ × ℤ) (h : k' ≠ k) :
    lookupEnd (upsertEnd l k v) k' = lookupEnd l k' := by
  induction l with
  | nil =>
    unfold upsertEnd lookupEnd
    rw [List.find?_cons_of_neg _ (by simpa using fun hh => h hh.symm)]
  | cons kv rest ih =>
    by_cases hh : kv.1 = k
    · unfold upsertEnd
      rw [if_pos hh]
      unfold lookupEnd
      have hne : ¬ kv.1 = k' := fun hx => h (hx.symm.trans hh)
      rw [List.find?_cons_of_neg _ (by simpa using hne),
        List.find?_cons_of_neg _ (by simpa using hne)]
    · unfold upsertEnd
      rw [if_neg hh]
      by_cases hk' : kv.1 = k'
      · unfold lookupEnd
        rw [List.find?_cons_of_pos _ (by simpa using hk'),
          List.find?_cons_of_pos _ (by simpa using hk')]
      · unfold lookupEnd
        rw [List.find?_cons_of_neg _ (by simpa using hk'),
          List.find?_cons_of_neg _ (by simpa using hk')]
        exact ih

/-- The value of each `end_msgs` key is the `(start, end)` list of the
notes with that `(channel, pitch)`, in order. -/
theorem lookupEnd_build (notes : List NoteMessage) :
    ∀ k, lookupEnd (buildEndMsgs notes) k
      = (notes.filter fun m => decide (keyCP m = k)).map seOf := by
  induction notes using List.reverseRecOn with
  | nil => intro k; rfl
  | append_singleton l m ih =>
    intro k
    rw [buildEndMsgs_snoc, List.filter_append]
    by_cases h : keyCP m = k
    · rw [← h, lookupEnd_upsert_self, ih (keyCP m)]
      simp [List.filter_cons, h]
    · rw [lookupEnd_upsert_ne _ _ _ _ (fun hh => h hh.symm), ih k]
      simp [List.filter_cons, h]

/-- The keys of `end_msgs` after an upsert. -/
theorem upsertEnd_keys (l : List ((ℤ × ℤ) × List (ℤ × ℤ)))
    (k : ℤ × ℤ) (v : ℤ × ℤ) :
    (upsertEnd l k v).map Prod.fst
      = if k ∈ l.map Prod.fst then l.map Prod.fst else l.map Prod.fst ++ [k] := by
  induction l with
  | nil => simp [upsertEnd]
  | cons kv rest ih =>
    by_cases h : kv.1 = k
    · unfold upsertEnd
      rw [if_pos h]
      have : k ∈ (kv :: rest).map Prod.fst := by
        rw [List.map_cons]
        exact h ▸ List.mem_cons_self _ _
      rw [if_pos this]
      rfl
    · unfold upsertEnd
      rw [if_neg h]
      rw [List.map_cons, List.map_cons, ih]
      by_cases hm : k ∈ rest.map Prod.fst
      · rw [if_pos hm, if_pos (List.mem_cons_of_mem _ hm)]
      · rw [if_neg hm, if_neg (by
          rw [List.mem_cons]
          rintro (hh | hh)
          · exact h hh.symm
          · exact hm hh)]
        rfl

/-- The keys of `end_msgs` are pairwise distinct. -/
theorem buildEndMsgs_keys_nodup (notes : List NoteMessage) :
    ((buildEndMsgs notes).map Prod.fst).Nodup := by
  induction notes using List.reverseRecOn with
  | nil => exact List.nodup_nil
  | append_singleton l m ih =>
    rw [buildEndMsgs_snoc, upsertEnd_keys]
    by_cases h : keyCP m ∈ (buildEndMsgs l).map Prod.fst
    · rw [if_pos h]; exact ih
    · rw [if_neg h]
      simp [List.nodup_append, ih, h]

/-- `filter` distributes into `flatMap`. -/
theorem filter_flatMap {α β : Type} (l : List α) (f : α → List β) (p : β → Bool) :
    (l.flatMap f).filter p = l.flatMap fun x => (f x).filter p := by
  induction l with
  | nil => rfl
  | cons a rest ih =>
    rw [List.flatMap_cons, List.flatMap_cons, List.filter_append, ih]

/-- `flatMap` congruence on members. -/
theorem flatMap_congr_mem {α β : Type} (l : List α) (f g : α → List β)
    (h : ∀ a ∈ l, f a = g a) : l.flatMap f = l.flatMap g := by
  induction l with
  | nil => rfl
  | cons a rest ih =>
    rw [List.flatMap_cons, List.flatMap_cons, h a (List.mem_cons_self a rest),
      ih fun a ha => h a (List.mem_cons_of_mem _ ha)]

/-- Over an association list with distinct keys, a key-guarded `flatMap`
reduces to the contribution of the entry found at that key. -/
theorem flatMap_guard_eq_find {β γ : Type} [DecidableEq β]
    (l : List ((β × β) × List (β × β))) (F : (β × β) × List (β × β) → List γ)
    (tgt : β × β) (hnd : (l.map Prod.fst).Nodup) :
    (l.flatMap fun kv => if kv.1 = tgt then F kv else [])
      = match l.find? fun kv => decide (kv.1 = tgt) with
        | some kv => F kv
        | none => [] := by
  induction l with
  | nil => rfl
  | cons kv rest ih =>
    rw [List.map_cons, List.nodup_cons] at hnd
    obtain ⟨h1, h2⟩ := hnd
    by_cases h : kv.1 = tgt
    · rw [List.flatMap_cons, if_pos h, List.find?_cons_of_pos _ (by simpa using h)]
      have hrest : (rest.flatMap fun kv => if kv.1 = tgt then F kv else []) = [] := by
        rw [ih h2, List.find?_eq_none.mpr]
        intro kv' hkv'
        simp only [decide_eq_true_eq]
        intro hx
        exact h1 (by
          rw [List.mem_map]
          exact ⟨kv', hkv', by rw [hx, ← h]⟩)
      rw [hrest, List.append_nil]
    · rw [List.flatMap_cons, if_neg h, List.find?_cons_of_neg _ (by simpa using h),
        List.nil_append]
      exact ih h2

/-- A `filterMap` whose outputs all satisfy the filter is unchanged by
it. -/
theorem filterMap_filter_true {α β : Type} (l : List α) (g : α → Option β)
    (p : β → Bool) (h : ∀ x ∈ l, ∀ b, g x = some b → p b = true) :
    (l.filterMap g).filter p = l.filterMap g := by
  rw [List.filter_eq_self]
  intro b hb
  rw [List.mem_filterMap] at hb
  obtain ⟨x, hx, hgx⟩ := hb
  exact h x hx b hgx

/-- A `filterMap` whose outputs all fail the filter is erased by it. -/
theorem filterMap_filter_false {α β : Type} (l : List α) (g : α → Option β)
    (p : β → Bool) (h : ∀ x ∈ l, ∀ b, g x = some b → p b = false) :
    (l.filterMap g).filter p = [] := by
  rw [List.filter_eq_nil]
  intro b hb
  rw [List.mem_filterMap] at hb
  obtain ⟨x, hx, hgx⟩ := hb
  rw [h x hx b hgx]
  exact fun hh => nomatch hh

/-- A `filterMap` that succeeds on every member is a `map`. -/
theorem filterMap_eq_map_of {α β : Type} (l : List α) (g : α → Option β)
    (f : α → β) (h : ∀ x ∈ l, g x = some (f x)) : l.filterMap g = l.map f := by
  induction l with
  | nil => rfl
  | cons a rest ih =>
    rw [List.filterMap_cons, h a (List.mem_cons_self a rest), List.map_cons,
      ih fun x hx => h x (List.mem_cons_of_mem _ hx)]

/-- `filter` commutes with `map`. -/
theorem filterOfMap {α β : Type} (l : List α) (f : α → β) (p : β → Bool) :
    (l.map f).filter p = (l.filter fun x => p (f x)).map f := by
  induction l with
  | nil => rfl
  | cons a rest ih =>
    rw [List.map_cons, List.filter_cons, List.filter_cons]
    by_cases h : p (f a) = true
    · rw [if_pos h, if_pos h, List.map_cons, ih]
    · rw [if_neg h, if_neg h, ih]

/-- In a strict, overlap-free note list no note-off of the key
`(pitch, channel) = (kp, kc)` is suppressed: the key's note-off events
are exactly one per note of that key, in note-list order. -/
theorem endEvents_filter_key (notes : List NoteMessage) (kp kc : ℤ)
    (hgood : ∀ m ∈ notes, 0 < m.data.velocity ∧ m.data.start < m.data.end_)
    (hnov : List.Pairwise (fun a b => ¬ notesOverlap a b) notes) :
    (endEvents notes).filter (isKeyEvt (kp, kc))
      = (notes.filter fun m => decide (keyNC m = (kp, kc))).map noteOffEvt := by
  have hpred : (fun m : NoteMessage => decide (keyCP m = ((kc, kp) : ℤ × ℤ)))
      = fun m : NoteMessage => decide (keyNC m = ((kp, kc) : ℤ × ℤ)) := by
    funext m
    apply decide_eq_decide.mpr
    unfold keyCP keyNC
    rw [Prod.mk.injEq, Prod.mk.injEq]
    exact and_comm
  unfold endEvents
  rw [filter_flatMap]
  have hstep : ∀ kv ∈ buildEndMsgs notes,
      ((kv.2.filterMap fun se =>
          if kv.2.any fun se2 => decide (se.1 < se2.1 ∧ se2.1 < se.2 ∧ se.2 < se2.2)
          then none else some ⟨.note_on kv.1.2 0 kv.1.1, se.2⟩).filter
        (isKeyEvt (kp, kc)))
        = if kv.1 = ((kc, kp) : ℤ × ℤ) then
            kv.2.filterMap fun se =>
              if kv.2.any fun se2 => decide (se.1 < se2.1 ∧ se2.1 < se.2 ∧ se.2 < se2.2)
              then none else some ⟨.note_on kv.1.2 0 kv.1.1, se.2⟩
          else [] := by
    intro kv _
    by_cases hk : kv.1 = ((kc, kp) : ℤ × ℤ)
    · rw [if_pos hk]
      apply filterMap_filter_true
      intro se _ b hgb
      split at hgb
      · exact Option.noConfusion hgb
      · injection hgb with hb
        subst hb
        simp [isKeyEvt, hk]
    · rw [if_neg hk]
      apply filterMap_filter_false
      intro se _ b hgb
      split at hgb
      · exact Option.noConfusion hgb
      · injection hgb with hb
        subst hb
        show isKeyEvt (kp, kc) _ = false
        unfold isKeyEvt
        apply decide_eq_false
        intro hx
        apply hk
        rw [Prod.mk.injEq] at hx
        exact Prod.ext (by rw [hx.2]) (by rw [hx.1])
  rw [flatMap_congr_mem _ _ _ hstep,
    flatMap_guard_eq_find _ _ _ (buildEndMsgs_keys_nodup notes)]
  cases hf : (buildEndMsgs notes).find? fun kv => decide (kv.1 = ((kc, kp) : ℤ × ℤ)) with
  | none =>
    have hlk : lookupEnd (buildEndMsgs notes) (kc, kp) = [] := by
      unfold lookupEnd
      rw [hf]
      rfl
    rw [lookupEnd_build, List.map_eq_nil] at hlk
    rw [← hpred, hlk]
    rfl
  | some kv0 =>
    have hkey : kv0.1 = ((kc, kp) : ℤ × ℤ) := by
      have := List.find?_some hf
      simpa using this
    have hval : kv0.2
        = (notes.filter fun m => decide (keyNC m = ((kp, kc) : ℤ × ℤ))).map seOf := by
      have hlk : lookupEnd (buildEndMsgs notes) (kc, kp) = kv0.2 := by
        unfold lookupEnd
        rw [hf]
        rfl
      rw [lookupEnd_build] at hlk
      rw [← hlk, hpred]
    show kv0.2.filterMap _ = _
    rw [hval, List.filterMap_map]
    apply filterMap_eq_map_of
    intro m hm
    have hm' := List.mem_filter.mp hm
    have hmem : m ∈ notes := hm'.1
    have hkeym : keyNC m = ((kp, kc) : ℤ × ℤ) := of_decide_eq_true hm'.2
    have hkp : m.data.pitch = kp := by
      have := congrArg Prod.fst hkeym
      simpa [keyNC] using this
    have hkc : m.channel = kc := by
      have := congrArg Prod.snd hkeym
      simpa [keyNC] using this
    have hsup : (((notes.filter fun m =>
          decide (keyNC m = ((kp, kc) : ℤ × ℤ))).map seOf).any fun se2 =>
        decide ((seOf m).1 < se2.1 ∧ se2.1 < (seOf m).2 ∧ (seOf m).2 < se2.2))
        = false := by
      rw [List.any_eq_false]
      intro se2 hse2
      rw [List.mem_map] at hse2
      obtain ⟨m2, hm2, rfl⟩ := hse2
      simp only [seOf, decide_eq_true_eq]
      rintro ⟨hlt1, hlt2, hlt3⟩
      have hm2' := List.mem_filter.mp hm2
      have hmem2 : m2 ∈ notes := hm2'.1
      have hkeym2 : keyNC m2 = ((kp, kc) : ℤ × ℤ) := of_decide_eq_true hm2'.2
      have hne : m ≠ m2 := by
        intro he
        rw [he] at hlt3
        exact absurd hlt3 (lt_irrefl _)
      have hforall := List.Pairwise.forall
        (fun a b (h : ¬ notesOverlap a b) hb => h (notesOverlap_symm b a hb)) hnov
      apply hforall hmem hmem2 hne
      refine ⟨?_, ?_⟩
      · unfold noteGroupKey
        have h2p : m2.data.pitch = kp := by
          have := congrArg Prod.fst hkeym2
          simpa [keyNC] using this
        have h2c : m2.channel = kc := by
          have := congrArg Prod.snd hkeym2
          simpa [keyNC] using this
        rw [hkp, hkc, h2p, h2c]
      · unfold rangesOverlap
        omega
    show (if _ then _ else _) = _
    rw [hsup]
    show some _ = some (noteOffEvt m)
    unfold noteOffEvt
    rw [hkey, hkp, hkc]
    rfl

/-- The events of one pairing key in the assembled (unsorted) track: the
key's note-ons followed by its note-offs, both in note-list order. -/
theorem track_filter_key (d : MidiDict) (kp kc : ℤ)
    (hped : d.pedal_msgs = [])
    (hgood : ∀ m ∈ d.note_msgs, 0 < m.data.velocity ∧ m.data.start < m.data.end_)
    (hnov : List.Pairwise (fun a b => ¬ notesOverlap a b) d.note_msgs) :
    (trackOf d).filter (isKeyEvt (kp, kc))
      = (d.note_msgs.filter fun m => decide (keyNC m = (kp, kc))).map noteOnEvt
        ++ (d.note_msgs.filter fun m => decide (keyNC m = (kp, kc))).map noteOffEvt := by
  unfold trackOf
  rw [hped]
  rw [List.filter_append, List.filter_append, List.filter_append, List.filter_append]
  have h1 : ((d.tempo_msgs.map fun m => (⟨.set_tempo m.data, m.tick⟩ : RawEvent)).filter
      (isKeyEvt (kp, kc))) = [] := by
    rw [List.filter_eq_nil]
    intro e he
    rw [List.mem_map] at he
    obtain ⟨m, hm, rfl⟩ := he
    simp [isKeyEvt]
  have h3 : ((d.instrument_msgs.map fun m =>
      (⟨.program_change m.data m.channel, m.tick⟩ : RawEvent)).filter
      (isKeyEvt (kp, kc))) = [] := by
    rw [List.filter_eq_nil]
    intro e he
    rw [List.mem_map] at he
    obtain ⟨m, hm, rfl⟩ := he
    simp [isKeyEvt]
  have h2 : ((([] : List PedalMessage).map fun m =>
      (⟨.control_change 64 (m.data * 127) m.channel, m.tick⟩ : RawEvent)).filter
      (isKeyEvt (kp, kc))) = [] := rfl
  rw [h1, h2, h3, endEvents_filter_key d.note_msgs kp kc hgood hnov,
    List.nil_append, List.nil_append, List.nil_append]
  congr 1
  rw [filterOfMap]
  rfl

/-- The key-`(kp, kc)` events of the sorted track are a permutation of
that key's note-ons and note-offs. -/
theorem sorted_filter_key_perm (d : MidiDict) (kp kc : ℤ)
    (hped : d.pedal_msgs = [])
    (hgood : ∀ m ∈ d.note_msgs, 0 < m.data.velocity ∧ m.data.start < m.data.end_)
    (hnov : List.Pairwise (fun a b => ¬ notesOverlap a b) d.note_msgs) :
    (((trackOf d).insertionSort rawLe).filter (isKeyEvt (kp, kc))).Perm
      ((d.note_msgs.filter fun m => decide (keyNC m = (kp, kc))).map noteOnEvt
        ++ (d.note_msgs.filter fun m => decide (keyNC m = (kp, kc))).map noteOffEvt) := by
  have h := (List.perm_insertionSort rawLe (trackOf d)).filter (isKeyEvt (kp, kc))
  rw [track_filter_key d kp kc hped hgood hnov] at h
  exact h

/-- The key-`(kp, kc)` events of the sorted track are sorted by the
assembler's order. -/
theorem sorted_filter_key_le (d : MidiDict) (kp kc : ℤ) :
    List.Pairwise rawLe
      (((trackOf d).insertionSort rawLe).filter (isKeyEvt (kp, kc))) :=
  List.Pairwise.sublist (List.filter_sublist _)
    (List.sorted_insertionSort rawLe (trackOf d))

/-- Two distinct same-key, strict, non-overlapping notes have distinct
start ticks and distinct end ticks. -/
theorem same_key_distinct (a b : NoteMessage) (hk : keyNC a = keyNC b)
    (hov : ¬ notesOverlap a b)
    (ha : a.data.start < a.data.end_) (hb : b.data.start < b.data.end_) :
    a.data.start ≠ b.data.start ∧ a.data.end_ ≠ b.data.end_ := by
  have hp := congrArg Prod.fst hk
  have hc := congrArg Prod.snd hk
  simp only [keyNC] at hp hc
  have hg : noteGroupKey a = noteGroupKey b := by
    unfold noteGroupKey
    rw [hp, hc]
  constructor
  · intro he
    exact hov ⟨hg, by unfold rangesOverlap; omega⟩
  · intro he
    exact hov ⟨hg, by unfold rangesOverlap; omega⟩

/-- The `_sort_fn` keys `(time, velocity)` of one pairing key's on/off
events are pairwise distinct. -/
theorem key_events_pairwise_ne (notes : List NoteMessage) (kp kc : ℤ)
    (hgood : ∀ m ∈ notes, 0 < m.data.velocity ∧ m.data.start < m.data.end_)
    (hnov : List.Pairwise (fun a b => ¬ notesOverlap a b) notes) :
    List.Pairwise (fun a b => ¬ (a.time = b.time ∧ velD a = velD b))
      ((notes.filter fun m => decide (keyNC m = (kp, kc))).map noteOnEvt
        ++ (notes.filter fun m => decide (keyNC m = (kp, kc))).map noteOffEvt) := by
  have hsub : List.Pairwise (fun a b => ¬ notesOverlap a b)
      (notes.filter fun m => decide (keyNC m = (kp, kc))) :=
    List.Pairwise.sublist (List.filter_sublist _) hnov
  have hmemk : ∀ m ∈ (notes.filter fun m => decide (keyNC m = (kp, kc))),
      keyNC m = (kp, kc) :=
    fun m hm => of_decide_eq_true (List.mem_filter.mp hm).2
  have hmemg : ∀ m ∈ (notes.filter fun m => decide (keyNC m = (kp, kc))),
      0 < m.data.velocity ∧ m.data.start < m.data.end_ :=
    fun m hm => hgood m (List.mem_filter.mp hm).1
  rw [List.pairwise_append]
  refine ⟨?_, ?_, ?_⟩
  · rw [List.pairwise_map]
    refine List.Pairwise.imp_of_mem ?_ hsub
    intro a b ha hb hov
    rintro ⟨ht, -⟩
    exact (same_key_distinct a b ((hmemk a ha).trans (hmemk b hb).symm) hov
      (hmemg a ha).2 (hmemg b hb).2).1 ht
  · rw [List.pairwise_map]
    refine List.Pairwise.imp_of_mem ?_ hsub
    intro a b ha hb hov
    rintro ⟨ht, -⟩
    exact (same_key_distinct a b ((hmemk a ha).trans (hmemk b hb).symm) hov
      (hmemg a ha).2 (hmemg b hb).2).2 ht
  · intro x hx y hy
    rw [List.mem_map] at hx hy
    obtain ⟨a, ha, rfl⟩ := hx
    obtain ⟨b, hb, rfl⟩ := hy
    rintro ⟨-, hv⟩
    have hva := (hmemg a ha).1
    simp only [velD, rawVelocity, noteOnEvt, noteOffEvt, Option.getD_some] at hv
    omega

/-- The key-`(kp, kc)` slice of the sorted track has pairwise distinct
sort keys. -/
theorem sorted_filter_key_ne (d : MidiDict) (kp kc : ℤ)
    (hped : d.pedal_msgs = [])
    (hgood : ∀ m ∈ d.note_msgs, 0 < m.data.velocity ∧ m.data.start < m.data.end_)
    (hnov : List.Pairwise (fun a b => ¬ notesOverlap a b) d.note_msgs) :
    List.Pairwise (fun a b => ¬ (a.time = b.time ∧ velD a = velD b))
      (((trackOf d).insertionSort rawLe).filter (isKeyEvt (kp, kc))) := by
  exact ((sorted_filter_key_perm d kp kc hped hgood hnov).pairwise_iff
    (fun h hc => h ⟨hc.1.symm, hc.2.symm⟩)).mpr
    (key_events_pairwise_ne d.note_msgs kp kc hgood hnov)

/-- The key-`(kp, kc)` slice of the sorted track is strictly sorted by
the assembler's order. -/
theorem sorted_filter_key_lt (d : MidiDict) (kp kc : ℤ)
    (hped : d.pedal_msgs = [])
    (hgood : ∀ m ∈ d.note_msgs, 0 < m.data.velocity ∧ m.data.start < m.data.end_)
    (hnov : List.Pairwise (fun a b => ¬ notesOverlap a b) d.note_msgs) :
    List.Pairwise rawLt
      (((trackOf d).insertionSort rawLe).filter (isKeyEvt (kp, kc))) := by
  refine ((sorted_filter_key_le d kp kc).and
    (sorted_filter_key_ne d kp kc hped hgood hnov)).imp ?_
  rintro a b ⟨hle, hne⟩
  unfold rawLe at hle
  unfold velD at hne
  unfold rawLt
  omega

/-- Membership in the alternating on/off stream of a note chain. -/
theorem keyEvents_mem (k : ℤ × ℤ) (l : List NoteMessage) (e : RawEvent)
    (he : e ∈ keyEvents k l) :
    ∃ m ∈ l, e = ⟨.note_on k.1 m.data.velocity k.2, m.data.start⟩
      ∨ e = ⟨.note_on k.1 0 k.2, m.data.end_⟩ := by
  induction l with
  | nil => exact absurd he (List.not_mem_nil e)
  | cons m rest ih =>
    rw [keyEvents, List.mem_cons, List.mem_cons] at he
    rcases he with he | he | he
    · exact ⟨m, List.mem_cons_self _ _, Or.inl he⟩
    · exact ⟨m, List.mem_cons_self _ _, Or.inr he⟩
    · obtain ⟨m', hm', hor⟩ := ih he
      exact ⟨m', List.mem_cons_of_mem _ hm', hor⟩

/-- The alternating on/off stream of a separated chain of strict,
positive-velocity notes is strictly sorted by the assembler's order. -/
theorem keyEvents_pairwise_lt (kp kc : ℤ) (l : List NoteMessage)
    (hstrict : ∀ m ∈ l, 0 < m.data.velocity ∧ m.data.start < m.data.end_)
    (hsep : List.Pairwise noteSep l) :
    List.Pairwise rawLt (keyEvents (kp, kc) l) := by
  induction l with
  | nil => exact List.Pairwise.nil
  | cons m rest ih =>
    rw [keyEvents]
    obtain ⟨hv, hse⟩ := hstrict m (List.mem_cons_self _ _)
    rw [List.pairwise_cons] at hsep
    obtain ⟨hsepm, hseprest⟩ := hsep
    have hrest : ∀ e ∈ keyEvents ((kp : ℤ), (kc : ℤ)) rest,
        m.data.end_ ≤ e.time ∧
          (e.time = m.data.end_ → 0 < (rawVelocity e).getD 1000) := by
      intro e he
      obtain ⟨m', hm', hor⟩ := keyEvents_mem (kp, kc) rest e he
      have hm's := hsepm m' hm'
      obtain ⟨hv', hse'⟩ := hstrict m' (List.mem_cons_of_mem _ hm')
      unfold noteSep at hm's
      rcases hor with rfl | rfl
      · exact ⟨by simpa using hm's, fun _ => by simpa [rawVelocity] using hv'⟩
      · refine ⟨by show m.data.end_ ≤ m'.data.end_; omega, fun ht => ?_⟩
        exact absurd (by simpa using ht) (by omega)
    rw [List.pairwise_cons]
    constructor
    · intro e he
      rw [List.mem_cons] at he
      rcases he with rfl | he
      · exact Or.inl (by simpa using hse)
      · obtain ⟨h1, -⟩ := hrest e he
        exact Or.inl (by show m.data.start < e.time; omega)
    · rw [List.pairwise_cons]
      constructor
      · intro e he
        obtain ⟨h1, h2⟩ := hrest e he
        rcases lt_or_eq_of_le h1 with h | h
        · exact Or.inl h
        · exact Or.inr ⟨h, by simpa [rawVelocity] using h2 h.symm⟩
      · exact ih (fun m' hm' => hstrict m' (List.mem_cons_of_mem _ hm')) hseprest

/-- The alternating on/off stream of a same-key note list is a
permutation of its on events followed by its off events. -/
theorem keyEvents_perm (kp kc : ℤ) (l : List NoteMessage)
    (hkey : ∀ m ∈ l, keyNC m = (kp, kc)) :
    (keyEvents (kp, kc) l).Perm (l.map noteOnEvt ++ l.map noteOffEvt) := by
  induction l with
  | nil => exact List.Perm.refl _
  | cons m rest ih =>
    rw [keyEvents, List.map_cons, List.map_cons, List.cons_append]
    have hkm := hkey m (List.mem_cons_self _ _)
    have hp : m.data.pitch = kp := by
      have := congrArg Prod.fst hkm
      simpa [keyNC] using this
    have hc : m.channel = kc := by
      have := congrArg Prod.snd hkm
      simpa [keyNC] using this
    have hone : (⟨.note_on (kp : ℤ) m.data.velocity (kc : ℤ), m.data.start⟩ : RawEvent)
        = noteOnEvt m := by
      unfold noteOnEvt
      rw [hp, hc]
    have hoffe : (⟨.note_on (kp : ℤ) 0 (kc : ℤ), m.data.end_⟩ : RawEvent)
        = noteOffEvt m := by
      unfold noteOffEvt
      rw [hp, hc]
    rw [hone, hoffe]
    have hmid := ih fun m' hm' => hkey m' (List.mem_cons_of_mem _ hm')
    exact List.Perm.cons _ (List.Perm.trans (List.Perm.cons _ hmid) List.perm_middle.symm)

/-- Running the single-key pairer over the alternating on/off stream of
strict positive-velocity notes emits exactly those notes (ticked at
their start) and ends with no open note. -/
theorem perKey_run (kp kc : ℤ) (l : List NoteMessage)
    (hstrict : ∀ m ∈ l, 0 < m.data.velocity ∧ m.data.start < m.data.end_) :
    ∀ acc, (keyEvents (kp, kc) l).foldl (perKeyStep (kp, kc)) (acc, [])
      = (acc ++ l.map (normNote (kp, kc)), []) := by
  induction l with
  | nil =>
    intro acc
    show (acc, ([] : List (ℤ × ℤ))) = (acc ++ [], [])
    rw [List.append_nil]
  | cons m rest ih =>
    intro acc
    obtain ⟨hv, hse⟩ := hstrict m (List.mem_cons_self _ _)
    have hne : m.data.start ≠ m.data.end_ := ne_of_lt hse
    rw [keyEvents, List.foldl_cons, List.foldl_cons]
    have h1 : perKeyStep (kp, kc) (acc, [])
        ⟨.note_on kp m.data.velocity kc, m.data.start⟩
        = (acc, [(m.data.start, m.data.velocity)]) := by
      dsimp only [perKeyStep]
      rw [if_pos rfl, if_pos hv, List.nil_append]
    have h2 : perKeyStep (kp, kc) (acc, [(m.data.start, m.data.velocity)])
        ⟨.note_on kp 0 kc, m.data.end_⟩
        = (acc ++ [normNote (kp, kc) m], []) := by
      dsimp only [perKeyStep]
      rw [if_pos rfl, if_neg (lt_irrefl 0), if_pos rfl]
      unfold perKeyClose
      rw [if_neg (by simp)]
      dsimp only
      rw [List.filter_cons, List.filter_cons, if_pos (by simpa using hne),
        if_neg (by simpa using hne)]
      dsimp only [List.filter_nil]
      rfl
    rw [h1, h2, ih (fun m' hm' => hstrict m' (List.mem_cons_of_mem _ hm'))
      (acc ++ [normNote (kp, kc) m]), List.map_cons, List.append_assoc]
    rfl

/-- The start-sorted same-key notes of a strict, overlap-free list are
pairwise separated: each ends no later than the next starts. -/
theorem snl_sep (notes : List NoteMessage) (kp kc : ℤ)
    (hgood : ∀ m ∈ notes, 0 < m.data.velocity ∧ m.data.start < m.data.end_)
    (hnov : List.Pairwise (fun a b => ¬ notesOverlap a b) notes) :
    List.Pairwise noteSep
      ((notes.filter fun m => decide (keyNC m = (kp, kc))).insertionSort startLe) := by
  have hsub : List.Pairwise (fun a b => ¬ notesOverlap a b)
      (notes.filter fun m => decide (keyNC m = (kp, kc))) :=
    List.Pairwise.sublist (List.filter_sublist _) hnov
  have hperm := List.perm_insertionSort startLe
    (notes.filter fun m => decide (keyNC m = (kp, kc)))
  have hov : List.Pairwise (fun a b => ¬ notesOverlap a b)
      ((notes.filter fun m => decide (keyNC m = (kp, kc))).insertionSort startLe) :=
    (hperm.pairwise_iff fun h hb => h (notesOverlap_symm _ _ hb)).mpr hsub
  have hsorted := List.sorted_insertionSort startLe
    (notes.filter fun m => decide (keyNC m = (kp, kc)))
  refine (hsorted.and hov).imp_of_mem ?_
  intro a b ha hb hand
  obtain ⟨hle, hnov'⟩ := hand
  have ha' := hperm.mem_iff.mp ha
  have hb' := hperm.mem_iff.mp hb
  have hka : keyNC a = (kp, kc) := of_decide_eq_true (List.mem_filter.mp ha').2
  have hkb : keyNC b = (kp, kc) := of_decide_eq_true (List.mem_filter.mp hb').2
  obtain ⟨-, hsa⟩ := hgood a (List.mem_filter.mp ha').1
  obtain ⟨-, hsb⟩ := hgood b (List.mem_filter.mp hb').1
  have hp := congrArg Prod.fst (hka.trans hkb.symm)
  have hc := congrArg Prod.snd (hka.trans hkb.symm)
  simp only [keyNC] at hp hc
  have hg : noteGroupKey a = noteGroupKey b := by
    unfold noteGroupKey
    rw [hp, hc]
  have hr : ¬ rangesOverlap a.data.start a.data.end_ b.data.start b.data.end_ :=
    fun hrr => hnov' ⟨hg, hrr⟩
  unfold rangesOverlap at hr
  unfold startLe at hle
  unfold noteSep
  omega

/-- The notes the round trip re-creates for one pairing key: the key's
notes sorted by start tick, re-ticked at their start. -/
theorem extract_notes_key (d : MidiDict) (kp kc : ℤ)
    (hped : d.pedal_msgs = [])
    (hgood : ∀ m ∈ d.note_msgs, 0 < m.data.velocity ∧ m.data.start < m.data.end_)
    (hnov : List.Pairwise (fun a b => ¬ notesOverlap a b) d.note_msgs) :
    ((extract_track_data (absConvert 0 (dict_to_midi d))).note_msgs.filter
        fun m => decide (keyNC m = (kp, kc)))
      = ((d.note_msgs.filter fun m => decide (keyNC m = (kp, kc))).insertionSort
          startLe).map (normNote (kp, kc)) := by
  obtain ⟨u, hu⟩ := absConvert_snoc
    (deltaConvert 0 ((trackOf d).insertionSort rawLe)) ⟨.end_of_track, 0⟩ 0
  rw [dict_to_midi_eq, hu, absConvert_deltaConvert, extract_append_eot]
  have hsnl := List.perm_insertionSort startLe
    (d.note_msgs.filter fun m => decide (keyNC m = (kp, kc)))
  have hkeysnl : ∀ m ∈ ((d.note_msgs.filter fun m =>
      decide (keyNC m = (kp, kc))).insertionSort startLe), keyNC m = (kp, kc) :=
    fun m hm => of_decide_eq_true (List.mem_filter.mp (hsnl.mem_iff.mp hm)).2
  have hstrictsnl : ∀ m ∈ ((d.note_msgs.filter fun m =>
      decide (keyNC m = (kp, kc))).insertionSort startLe),
      0 < m.data.velocity ∧ m.data.start < m.data.end_ :=
    fun m hm => hgood m (List.mem_filter.mp (hsnl.mem_iff.mp hm)).1
  have hKperm : (((trackOf d).insertionSort rawLe).filter (isKeyEvt (kp, kc))).Perm
      (keyEvents (kp, kc) ((d.note_msgs.filter fun m =>
        decide (keyNC m = (kp, kc))).insertionSort startLe)) := by
    refine (sorted_filter_key_perm d kp kc hped hgood hnov).trans
      (List.Perm.trans ?_ (keyEvents_perm kp kc _ hkeysnl).symm)
    exact List.Perm.append (hsnl.map noteOnEvt).symm (hsnl.map noteOffEvt).symm
  have hKT : ((trackOf d).insertionSort rawLe).filter (isKeyEvt (kp, kc))
      = keyEvents (kp, kc) ((d.note_msgs.filter fun m =>
        decide (keyNC m = (kp, kc))).insertionSort startLe) :=
    List.eq_of_perm_of_sorted hKperm
      (sorted_filter_key_lt d kp kc hped hgood hnov)
      (keyEvents_pairwise_lt kp kc _ hstrictsnl (snl_sep d.note_msgs kp kc hgood hnov))
  have h1 : ((extract_track_data ((trackOf d).insertionSort rawLe)).note_msgs.filter
      fun m => decide (keyNC m = (kp, kc)))
      = (((trackOf d).insertionSort rawLe).foldl (perKeyStep (kp, kc))
          ([], [])).1 :=
    congrArg Prod.fst
      (extract_key_decomp ((trackOf d).insertionSort rawLe) emptyTrackData (kp, kc))
  rw [h1, perKey_fold_filter, hKT, perKey_run kp kc _ hstrictsnl [],
    List.nil_append]

/-- Counting a value in a mapped list as a `countP`. -/
theorem count_map_eq_countP {α β : Type} [DecidableEq β] (f : α → β)
    (l : List α) (b : β) :
    (l.map f).count b = l.countP fun a => decide (f a = b) := by
  induction l with
  | nil => rfl
  | cons a rest ih =>
    rw [List.map_cons, List.count_cons, List.countP_cons, ih]
    exact rfl

/-- `countP` is unchanged by a filter that keeps everything it counts. -/
theorem countP_filter_of_imp {α : Type} (l : List α) (p pk : α → Bool)
    (h : ∀ x, p x = true → pk x = true) :
    l.countP p = (l.filter pk).countP p := by
  induction l with
  | nil => rfl
  | cons a rest ih =>
    rw [List.countP_cons, List.filter_cons]
    by_cases hpk : pk a = true
    · rw [if_pos hpk, List.countP_cons, ih]
    · have hp : p a = false := Bool.eq_false_iff.mpr fun hpt => hpk (h a hpt)
      rw [hp, if_neg hpk, ih]
      simp

/-- A note's pairing key is determined by its quintuple. -/
theorem quint_key (m : NoteMessage) (p c s e v : ℤ)
    (h : noteQuint m = (p, c, s, e, v)) : keyNC m = (p, c) := by
  unfold noteQuint at h
  simp only [Prod.mk.injEq] at h
  unfold keyNC
  rw [h.1, h.2.1]

/-- Re-creating a note of its own key preserves the quintuple. -/
theorem quint_normNote (kp kc : ℤ) (m : NoteMessage) (h : keyNC m = (kp, kc)) :
    noteQuint (normNote (kp, kc) m) = noteQuint m := by
  have hp := congrArg Prod.fst h
  have hc := congrArg Prod.snd h
  simp only [keyNC] at hp hc
  unfold noteQuint normNote
  dsimp only
  rw [hp, hc]

/-- Claim C7 (amended): for every document whose pedal message list is
empty, in which every note has positive velocity and start < end, and in
which no two notes of the same (channel, pitch) overlap, converting with
`dict_to_midi` and re-pairing the resulting delta-tick track (absolute
conversion followed by `_extract_track_data`) reproduces the same
multiset of `(pitch, channel, start, end, velocity)` note quintuples. -/
theorem dict_to_midi_round_trip (d : MidiDict)
    (hped : d.pedal_msgs = [])
    (hgood : ∀ m ∈ d.note_msgs, 0 < m.data.velocity ∧ m.data.start < m.data.end_)
    (hnov : List.Pairwise (fun a b => ¬ notesOverlap a b) d.note_msgs) :
    ((extract_track_data (absConvert 0 (dict_to_midi d))).note_msgs.map
        noteQuint).Perm (d.note_msgs.map noteQuint) := by
  rw [List.perm_iff_count]
  intro q
  obtain ⟨p, c, s, e, v⟩ := q
  rw [count_map_eq_countP, count_map_eq_countP]
  have himp : ∀ x : NoteMessage,
      decide (noteQuint x = (p, c, s, e, v)) = true →
        decide (keyNC x = ((p : ℤ), (c : ℤ))) = true :=
    fun x hx => decide_eq_true (quint_key x p c s e v (of_decide_eq_true hx))
  rw [countP_filter_of_imp
      (extract_track_data (absConvert 0 (dict_to_midi d))).note_msgs _ _ himp,
    countP_filter_of_imp d.note_msgs _ _ himp,
    extract_notes_key d p c hped hgood hnov, List.countP_map]
  have hsnl := List.perm_insertionSort startLe
    (d.note_msgs.filter fun m => decide (keyNC m = (p, c)))
  rw [← hsnl.countP_eq]
  rw [List.countP_eq_length_filter, List.countP_eq_length_filter]
  congr 1
  apply List.filter_congr
  intro m hm
  have hk : keyNC m = (p, c) :=
    of_decide_eq_true (List.mem_filter.mp (hsnl.mem_iff.mp hm)).2
  show decide (noteQuint (normNote (p, c) m) = (p, c, s, e, v)) = _
  rw [quint_normNote p c m hk]

/-- Claim C7 (witness): the amended round trip on a concrete pedal-free
strict document. -/
theorem dict_to_midi_round_trip_witness :
    dC4.pedal_msgs = [] ∧
    ((extract_track_data (absConvert 0 (dict_to_midi dC4))).note_msgs.map
        noteQuint).Perm (dC4.note_msgs.map noteQuint) :=
  ⟨rfl, dict_to_midi_round_trip dC4 rfl (by decide) (by decide)⟩
